import Mathlib

/-!
A shallow embedding of the protoscope assembler (scanner.go) and the varint
codec shared with the disassembler (writer.go), together with theorems
checking the natural-language specification against it.

Conventions:
* Go byte strings are `List Nat`, each element a byte value (operations mask
  or bound values so no extra invariant is needed).
* Go `uint64` / `int64` arithmetic is done on `Nat` bit patterns with explicit
  `% 2^64` where Go wraps; signed views are recovered via `toSigned64`.
* Loops whose termination is not structural take an explicit fuel argument;
  every public wrapper computes a fuel that provably dominates the number of
  iterations, so the fuel branch is unreachable from the wrappers.
* The source snapshot of scanner.go predates some features that the
  repository's tests, documentation (language.txt) and the disassembler rely
  on (group syntax `!{`, octal escapes, the field-number overflow check).
  Definitions for those carry a `Modelled from the spec:` comment and are
  enabled by a boolean flag `m`, so that `m = false` is exactly the code
  under src/ and `m = true` adds the spec-modelled behaviour.
-/

set_option maxHeartbeats 1000000

deriving instance DecidableEq for Except

namespace Protoscope

/-- scanner.go `Position` (the `File` field only affects error pretty-printing
and is omitted; the zero value of the remaining fields is `zeroPos`). -/
structure Position where
  offset : Nat
  line : Nat
  column : Nat
deriving DecidableEq, Repr

/-- The zero-value `Position` (first byte of the input). -/
def zeroPos : Position := ⟨0, 0, 0⟩

/-- scanner.go `tokenKind`, extended with `groupCurly` which only the
spec-modelled scanner (`m = true`) ever produces. -/
inductive TokenKind where
  | bytes
  | longForm
  | leftCurly
  | rightCurly
  | groupCurly
  | eof
deriving DecidableEq, Repr

/-- scanner.go `token`. -/
structure Token where
  kind : TokenKind
  value : List Nat
  wireType : Nat
  inferredType : Bool
  pos : Position
  length : Nat
deriving DecidableEq, Repr

/-- A `tokenBytes` token. -/
def Token.bytes (value : List Nat) (wireType : Nat) (inferredType : Bool)
    (pos : Position) : Token :=
  ⟨.bytes, value, wireType, inferredType, pos, 0⟩

/-- A curly / EOF token (no payload). -/
def Token.punct (kind : TokenKind) (pos : Position) : Token :=
  ⟨kind, [], 0, false, pos, 0⟩

/-- A `tokenLongForm` token.  Mirroring scanner.go line 473, the `Pos` field is
NOT populated: the Go code builds `token{Kind: tokenLongForm, Length: int(l)}`
and so the position is the zero value. -/
def Token.longForm (length : Nat) : Token :=
  ⟨.longForm, [], 0, false, zeroPos, length⟩

/-- The payloads of the errors produced by the scanner (the Go code wraps
library errors and message strings; we record which site produced them). -/
inductive ScanErr where
  | expectedEscapeChar
  | unfinishedEscape
  | badHexDigits
  | unknownEscape (c : Nat)
  | illegalQuotedEscape
  | unmatchedQuote
  | unmatchedBacktick
  | intParseErr
  | fixedWidthOnTag
  | wireTypeRange
  | fit32
  | floatErr
  | unrecognizedSymbol (sym : List Nat)
  | lengthModifierMisplaced
  | unmatchedRightCurly
  | unmatchedLeftCurly
  | groupWithoutTag
  | fieldNumberOverflow
  | fuelExhausted
deriving DecidableEq, Repr

/-- An error: either a `ParseError` carrying a `Position`, or a plain error
(the `unrecognized symbol` error in scanner.go line 491 is built with
`fmt.Errorf` and carries no position). -/
inductive Err where
  | atPos (pos : Position) (e : ScanErr)
  | anon (e : ScanErr)
deriving DecidableEq, Repr

/-! ## Varint codec

`encodeVarint` is scanner.go lines 571-588; `decodeVarint` is writer.go lines
631-667. -/

/-- The canonical base-128 chunks of `value`, least significant first, with the
continuation bit set on all but the last byte.  The Go loop `for value > 0x7f`
is totalised with a fuel of 10, which dominates the chunk count for every
`uint64` (at most ten base-128 digits); the fuel-0 branch is unreachable for
`value < 2^70`. -/
def encVarCore : Nat → Nat → List Nat
  | 0, value => [value]
  | fuel+1, value =>
    if value > 0x7f then (value % 0x80 + 0x80) :: encVarCore fuel (value / 0x80)
    else [value]

/-- Replace the last element of a list by `f` of it. -/
def modifyLast (f : Nat → Nat) : List Nat → List Nat
  | [] => []
  | [b] => [f b]
  | b :: rest => b :: modifyLast f rest

/-- scanner.go `encodeVarint(dest, value, longForm)`: append the canonical
encoding, then, if `longForm > 0`, set the continuation bit on the last byte
and append `longForm - 1` bytes of `0x80` and one terminating `0x00`. -/
def encodeVarint (dest : List Nat) (value : Nat) (longForm : Nat) : List Nat :=
  let enc := encVarCore 10 value
  if longForm > 0 then
    dest ++ (modifyLast (fun b => b ||| 0x80) enc ++
      List.replicate (longForm - 1) 0x80 ++ [0x00])
  else dest ++ enc

/-- The result quadruple of writer.go `decodeVarint`. -/
structure VarintDec where
  rest : List Nat
  value : Nat
  extra : Nat
  ok : Bool
deriving DecidableEq, Repr

/-- The loop of writer.go `decodeVarint`, structural on the input list.
On the two failure paths the Go function returns the named results
accumulated so far with `rest = nil` and `ok = false`. -/
def decodeVarintLoop : List Nat → Nat → Nat → Nat → VarintDec
  | [], _, value, extraBytes => ⟨[], value, extraBytes, false⟩
  | b :: src, count, value, extraBytes =>
    if count = 9 ∧ 1 < b then ⟨[], value, extraBytes, false⟩
    else
      let value := value ||| ((b &&& 0x7f) <<< (count * 7))
      let extraBytes := if b &&& 0x7f = 0 then extraBytes + 1 else 0
      if b &&& 0x80 = 0 then ⟨src, value, extraBytes, true⟩
      else decodeVarintLoop src (count + 1) value extraBytes

/-- writer.go `decodeVarint(src)`: the loop plus the final adjustment
`if value == 0 { extraBytes-- }` (only reached on the success path; the
failure paths return early inside the loop). -/
def decodeVarint (src : List Nat) : VarintDec :=
  let r := decodeVarintLoop src 0 0 0
  if r.ok ∧ r.value = 0 then ⟨r.rest, r.value, r.extra - 1, r.ok⟩ else r

/-- The spec's `canonical_len(value)`: the length of the canonical (shortest)
varint encoding of `value`. -/
def canonicalLen (value : Nat) : Nat := Nat.log 128 value + 1

/-! ### Arithmetic helpers for the varint proofs -/

theorem lor_shiftLeft_add (k a b : Nat) (h : a < 2 ^ k) :
    a ||| (b <<< k) = a + b <<< k := by
  induction k generalizing a b with
  | zero =>
    have ha : a = 0 := by omega
    subst ha
    simp
  | succ k ih =>
    have hb : b <<< (k + 1) = Nat.bit false (b <<< k) := by
      simp [Nat.bit_val, Nat.shiftLeft_succ]
    have hd : a >>> 1 < 2 ^ k := by
      have h1 : a >>> 1 = a / 2 := Nat.shiftRight_one a
      have h2 : 2 ^ (k + 1) = 2 * 2 ^ k := by ring
      omega
    have hm : (a.testBit 0).toNat = a % 2 := by
      rcases Nat.mod_two_eq_zero_or_one a with h2 | h2 <;>
        simp [Nat.testBit_zero, h2]
    calc a ||| (b <<< (k + 1))
        = Nat.bit (a.testBit 0) (a >>> 1) ||| Nat.bit false (b <<< k) := by
          rw [Nat.bit_testBit_zero_shiftRight_one, ← hb]
      _ = Nat.bit (a.testBit 0 || false) ((a >>> 1) ||| (b <<< k)) :=
          Nat.lor_bit _ _ _ _
      _ = Nat.bit (a.testBit 0) ((a >>> 1) + b <<< k) := by
          rw [Bool.or_false, ih _ _ hd]
      _ = a + b <<< (k + 1) := by
          rw [Nat.bit_val, hb, Nat.bit_val, hm, Nat.shiftRight_one]
          simp only [Bool.toNat_false]
          omega

/-- Recomposition of one base-128 chunk: the low chunk OR-ed with the shifted
high part gives back the shifted value. -/
theorem chunk_recompose (v c : Nat) :
    ((v % 128) <<< (7 * c)) ||| ((v / 128) <<< (7 * c + 7)) = v <<< (7 * c) := by
  have hlt : v % 128 < 128 := Nat.mod_lt _ (by norm_num)
  have h2 : (0 : Nat) < 2 ^ (7 * c) := Nat.pos_pow_of_pos _ (by norm_num)
  have h1 : (v % 128) <<< (7 * c) < 2 ^ (7 * c + 7) := by
    rw [Nat.shiftLeft_eq, pow_add]
    calc v % 128 * 2 ^ (7 * c) < 128 * 2 ^ (7 * c) :=
          (Nat.mul_lt_mul_right h2).mpr hlt
      _ = 2 ^ (7 * c) * 2 ^ 7 := by norm_num [Nat.mul_comm]
  rw [lor_shiftLeft_add _ _ _ h1]
  rw [Nat.shiftLeft_eq, Nat.shiftLeft_eq, Nat.shiftLeft_eq, pow_add]
  have hv := Nat.div_add_mod v 128
  calc v % 128 * 2 ^ (7 * c) + v / 128 * (2 ^ (7 * c) * 2 ^ 7)
      = (128 * (v / 128) + v % 128) * 2 ^ (7 * c) := by ring
    _ = v * 2 ^ (7 * c) := by rw [hv]

theorem and_0x7f (b : Nat) : b &&& 0x7f = b % 128 := by
  have := Nat.and_pow_two_sub_one_eq_mod b 7
  norm_num at this
  exact this

theorem and_0x80_eq_zero {b : Nat} (h : b < 128) : b &&& 0x80 = 0 := by
  have h1 : (0x80 : Nat) = 2 ^ 7 := by norm_num
  rw [h1, Nat.and_two_pow]
  have : b.testBit 7 = false := by
    apply Nat.testBit_lt_two_pow
    norm_num
    omega
  simp [this]

theorem and_0x80_add (b : Nat) (h : b < 128) : (b + 128) &&& 0x80 = 0x80 := by
  have h1 : (0x80 : Nat) = 2 ^ 7 := by norm_num
  rw [h1, Nat.and_two_pow]
  have ht : (b + 128).testBit 7 = true := by
    rw [Nat.testBit_to_div_mod]
    norm_num
    omega
  simp [ht]

theorem lor_128_eq_add {b : Nat} (h : b < 128) : b ||| 128 = b + 128 := by
  have h7 : (128 : Nat) = 1 <<< 7 := by norm_num [Nat.shiftLeft_eq]
  rw [h7, lor_shiftLeft_add 7 b 1 (by norm_num; omega)]

theorem encVarCore_ne_nil (fuel v : Nat) : encVarCore fuel v ≠ [] := by
  cases fuel with
  | zero => simp [encVarCore]
  | succ f =>
    by_cases h : v > 0x7f <;> simp [encVarCore, h]

theorem modifyLast_cons (f : Nat → Nat) (b : Nat) (l : List Nat)
    (h : l ≠ []) : modifyLast f (b :: l) = b :: modifyLast f l := by
  cases l with
  | nil => exact absurd rfl h
  | cons x xs => rfl

theorem modifyLast_length (f : Nat → Nat) (l : List Nat) :
    (modifyLast f l).length = l.length := by
  induction l with
  | nil => rfl
  | cons b rest ih =>
    cases rest with
    | nil => rfl
    | cons x xs => simpa [modifyLast] using ih

/-- Length of the canonical chunk list: `canonical_len`. -/
theorem encVarCore_length (fuel v : Nat) (hfuel : v < 128 ^ (fuel + 1)) :
    (encVarCore fuel v).length = canonicalLen v := by
  induction fuel generalizing v with
  | zero =>
    have hv : v < 128 := by simpa using hfuel
    have : Nat.log 128 v = 0 := Nat.log_eq_zero_iff.mpr (Or.inl hv)
    simp [encVarCore, canonicalLen, this]
  | succ fuel ih =>
    by_cases hv : v > 0x7f
    · have hdiv : v / 128 < 128 ^ (fuel + 1) := by
        rw [Nat.div_lt_iff_lt_mul (by norm_num : (0 : Nat) < 128)]
        calc v < 128 ^ (fuel + 2) := hfuel
          _ = 128 ^ (fuel + 1) * 128 := by ring
      have hlog : 0 < Nat.log 128 v := Nat.log_pos (by norm_num) (by omega)
      have hld := Nat.log_div_base 128 v
      simp only [encVarCore, hv, if_pos, List.length_cons, ih _ hdiv,
        canonicalLen]
      omega
    · have : Nat.log 128 v = 0 := Nat.log_eq_zero_iff.mpr (Or.inl (by omega))
      simp [encVarCore, hv, canonicalLen, this]

/-- Processing a single terminal varint byte `v < 128`. -/
theorem decode_single (v count acc extraIn : Nat) (hv : v < 128)
    (hg : ¬(count = 9 ∧ 1 < v)) :
    decodeVarintLoop [v] count acc extraIn =
      ⟨[], acc ||| v <<< (count * 7), if v = 0 then extraIn + 1 else 0, true⟩ := by
  have h7 : v &&& 0x7f = v := by rw [and_0x7f]; omega
  have h8 : v &&& 0x80 = 0 := and_0x80_eq_zero hv
  simp only [decodeVarintLoop, hg, if_false, h7, h8, if_true]

/-- If `count ≥ 9` then the guard bound forces `v ≤ 1`. -/
theorem guard_bound {v count : Nat} (hguard : v < 2 ^ (64 - 7 * count))
    (hc : 9 ≤ count) : v ≤ 1 := by
  have h1 : 64 - 7 * count ≤ 1 := by omega
  have h2 : (2 : Nat) ^ (64 - 7 * count) ≤ 2 ^ 1 :=
    Nat.pow_le_pow_right (by norm_num) h1
  omega

/-- Decoding the canonical encoding of `v` (no long-form padding): the loop
consumes it entirely, accumulates `v` at the current chunk position, and
reports one redundant byte exactly when `v = 0`. -/
theorem decode_encVarCore (fuel : Nat) : ∀ v count acc extraIn : Nat,
    v < 128 ^ (fuel + 1) → v < 2 ^ (64 - 7 * count) →
    decodeVarintLoop (encVarCore fuel v) count acc extraIn =
      ⟨[], acc ||| v <<< (count * 7), if v = 0 then extraIn + 1 else 0, true⟩ := by
  induction fuel with
  | zero =>
    intro v count acc extraIn hfuel hguard
    have hv : v < 128 := by simpa using hfuel
    have hg : ¬(count = 9 ∧ 1 < v) := by
      rintro ⟨h9, h1⟩
      subst h9
      have := guard_bound hguard (le_refl 9)
      omega
    simpa [encVarCore] using decode_single v count acc extraIn hv hg
  | succ fuel ih =>
    intro v count acc extraIn hfuel hguard
    by_cases hv : v > 0x7f
    · have hc8 : count ≤ 8 := by
        by_contra hc
        have := guard_bound hguard (by omega)
        omega
      have hg : ¬(count = 9 ∧ 1 < (v % 0x80 + 0x80)) := by
        rintro ⟨h9, _⟩; omega
      have h7 : (v % 0x80 + 0x80) &&& 0x7f = v % 128 := by
        rw [and_0x7f]; omega
      have h8 : (v % 0x80 + 0x80) &&& 0x80 = 0x80 :=
        and_0x80_add _ (Nat.mod_lt _ (by norm_num))
      have hdiv : v / 128 < 128 ^ (fuel + 1) := by
        rw [Nat.div_lt_iff_lt_mul (by norm_num : (0 : Nat) < 128)]
        calc v < 128 ^ (fuel + 2) := hfuel
          _ = 128 ^ (fuel + 1) * 128 := by ring
      have hguard' : v / 128 < 2 ^ (64 - 7 * (count + 1)) := by
        rw [Nat.div_lt_iff_lt_mul (by norm_num : (0 : Nat) < 128)]
        have he : 64 - 7 * count = (64 - 7 * (count + 1)) + 7 := by omega
        calc v < 2 ^ (64 - 7 * count) := hguard
          _ = 2 ^ (64 - 7 * (count + 1)) * 128 := by
              rw [he, pow_add]; norm_num
      have hrec := ih (v / 128) (count + 1)
        (acc ||| (v % 128) <<< (count * 7))
        (if v % 128 = 0 then extraIn + 1 else 0) hdiv hguard'
      have hchunk : ((v % 128) <<< (count * 7)) |||
          ((v / 128) <<< (count * 7 + 7)) = v <<< (count * 7) := by
        have := chunk_recompose v count
        rwa [Nat.mul_comm 7 count] at this
      simp only [encVarCore, hv, if_pos, decodeVarintLoop, hg, if_false, h7, h8]
      have hdne : v / 128 ≠ 0 := by
        intro h0
        have := Nat.div_add_mod v 128
        omega
      have hvne : v ≠ 0 := by omega
      norm_num [hrec, hdne]
      constructor
      · rw [Nat.lor_assoc]
        rw [show (count + 1) * 7 = count * 7 + 7 by ring] at *
        rw [hchunk]
      · simp [hvne]
    · have hvv : v < 128 := by omega
      have hg : ¬(count = 9 ∧ 1 < v) := by
        rintro ⟨h9, h1⟩
        subst h9
        have := guard_bound hguard (le_refl 9)
        omega
      simpa [encVarCore, hv] using decode_single v count acc extraIn hvv hg

/-- Decoding the canonical chunks of `v` with the continuation bit forced on
the last byte: the loop runs into `tail` with the value accumulated and the
zero-run counter propagated. -/
theorem decode_encVarCore_cont (fuel : Nat) : ∀ (v count acc extraIn : Nat)
    (tail : List Nat), v < 128 ^ (fuel + 1) → count + canonicalLen v ≤ 9 →
    decodeVarintLoop
        (modifyLast (fun b => b ||| 0x80) (encVarCore fuel v) ++ tail)
        count acc extraIn =
      decodeVarintLoop tail (count + canonicalLen v)
        (acc ||| v <<< (count * 7)) (if v = 0 then extraIn + 1 else 0) := by
  induction fuel with
  | zero =>
    intro v count acc extraIn tail hfuel hcount
    have hv : v < 128 := by simpa using hfuel
    have hlog : Nat.log 128 v = 0 := Nat.log_eq_zero_iff.mpr (Or.inl hv)
    have hcl : canonicalLen v = 1 := by simp [canonicalLen, hlog]
    have hor : v ||| 0x80 = v + 128 := lor_128_eq_add hv
    have hg : ¬(count = 9 ∧ 1 < v + 128) := by
      rintro ⟨h9, _⟩; omega
    have h7 : (v + 128) &&& 0x7f = v := by rw [and_0x7f]; omega
    have h8 : (v + 128) &&& 0x80 = 0x80 := and_0x80_add _ hv
    simp only [encVarCore, modifyLast, hor, List.cons_append, List.nil_append,
      decodeVarintLoop, hg, if_false, h7, h8, hcl]
    norm_num
  | succ fuel ih =>
    intro v count acc extraIn tail hfuel hcount
    by_cases hv : v > 0x7f
    · have hlog : 0 < Nat.log 128 v := Nat.log_pos (by norm_num) (by omega)
      have hld := Nat.log_div_base 128 v
      have hg : ¬(count = 9 ∧ 1 < (v % 0x80 + 0x80)) := by
        rintro ⟨h9, _⟩
        simp [canonicalLen] at hcount
        omega
      have h7 : (v % 0x80 + 0x80) &&& 0x7f = v % 128 := by
        rw [and_0x7f]; omega
      have h8 : (v % 0x80 + 0x80) &&& 0x80 = 0x80 :=
        and_0x80_add _ (Nat.mod_lt _ (by norm_num))
      have hdiv : v / 128 < 128 ^ (fuel + 1) := by
        rw [Nat.div_lt_iff_lt_mul (by norm_num : (0 : Nat) < 128)]
        calc v < 128 ^ (fuel + 2) := hfuel
          _ = 128 ^ (fuel + 1) * 128 := by ring
      have hcount' : (count + 1) + canonicalLen (v / 128) ≤ 9 := by
        simp only [canonicalLen] at hcount ⊢
        omega
      have hne := encVarCore_ne_nil fuel (v / 128)
      have hrec := ih (v / 128) (count + 1)
        (acc ||| (v % 128) <<< (count * 7))
        (if v % 128 = 0 then extraIn + 1 else 0) tail hdiv hcount'
      have hchunk : ((v % 128) <<< (count * 7)) |||
          ((v / 128) <<< (count * 7 + 7)) = v <<< (count * 7) := by
        have := chunk_recompose v count
        rwa [Nat.mul_comm 7 count] at this
      have hdne : v / 128 ≠ 0 := by
        intro h0
        have := Nat.div_add_mod v 128
        omega
      have hvne : v ≠ 0 := by omega
      simp only [encVarCore, hv, if_pos,
        modifyLast_cons _ _ _ hne, List.cons_append,
        decodeVarintLoop, hg, if_false, h7, h8]
      norm_num [hrec, hdne, hvne]
      rw [show count + 1 + canonicalLen (v / 128)
            = count + canonicalLen v by
          simp only [canonicalLen]; omega]
      rw [Nat.lor_assoc, show (count + 1) * 7 = count * 7 + 7 by ring, hchunk]
    · have hvv : v < 128 := by omega
      have hlog : Nat.log 128 v = 0 := Nat.log_eq_zero_iff.mpr (Or.inl hvv)
      have hcl : canonicalLen v = 1 := by simp [canonicalLen, hlog]
      have hor : v ||| 0x80 = v + 128 := lor_128_eq_add hvv
      have hg : ¬(count = 9 ∧ 1 < v + 128) := by
        rintro ⟨h9, _⟩; omega
      have h7 : (v + 128) &&& 0x7f = v := by rw [and_0x7f]; omega
      have h8 : (v + 128) &&& 0x80 = 0x80 := and_0x80_add _ hvv
      simp only [encVarCore, hv, if_false, modifyLast, hor, List.cons_append,
        List.nil_append, decodeVarintLoop, hg, h7, h8, hcl]
      norm_num

/-- Decoding the long-form padding: `e` bytes of `0x80` and a final `0x00`
add `e + 1` to the redundancy counter and terminate the varint. -/
theorem decode_padding : ∀ e count acc extra : Nat, count + e ≤ 9 →
    decodeVarintLoop (List.replicate e 0x80 ++ [0]) count acc extra =
      ⟨[], acc, extra + e + 1, true⟩ := by
  intro e
  induction e with
  | zero =>
    intro count acc extra hc
    have hg : ¬(count = 9 ∧ (1 : Nat) < 0) := by rintro ⟨_, h⟩; omega
    simp [decodeVarintLoop, hg]
  | succ e ih =>
    intro count acc extra hc
    have hg : ¬(count = 9 ∧ (1 : Nat) < 0x80) := by
      rintro ⟨h9, _⟩; omega
    have h7 : (0x80 : Nat) &&& 0x7f = 0 := by decide
    have h8 : (0x80 : Nat) &&& 0x80 = 0x80 := by decide
    simp only [List.replicate_succ, List.cons_append, decodeVarintLoop, hg,
      if_false, h7, h8]
    norm_num [ih (count + 1) _ _ (by omega)]
    omega

/-- C3, counterexample.  The claim quantifies over every `extra ≥ 0`, but for
`value = 0, extra = 10` the encoding is eleven bytes long, so `decodeVarint`
rejects its tenth byte (`0x80 > 1`) and fails instead of returning
`(0, 10, true)`. -/
theorem c3_counterexample :
    (decodeVarint (encodeVarint [] 0 10)).ok = false ∧
    decodeVarint (encodeVarint [] 0 10) ≠ ⟨[], 0, 10, true⟩ := by
  decide

/-- C3, amended: for every `value < 2^64` and every `extra` such that the
padded encoding fits in the ten bytes `decodeVarint` accepts
(`canonical_len(value) + extra ≤ 10`), decoding the output of
`encodeVarint(value, extra)` succeeds, returns the same value and the same
extra count, and consumes exactly `canonical_len(value) + extra` bytes
(the whole encoding, whose length is exactly that). -/
theorem c3_varint_roundtrip_amended (v e : Nat) (hv : v < 2 ^ 64)
    (hlen : canonicalLen v + e ≤ 10) :
    decodeVarint (encodeVarint [] v e) = ⟨[], v, e, true⟩ ∧
    (encodeVarint [] v e).length = canonicalLen v + e := by
  have hfuel : v < 128 ^ 11 := lt_of_lt_of_le hv (by norm_num)
  constructor
  · cases e with
    | zero =>
      have h1 := decode_encVarCore 10 v 0 0 0 hfuel (by simpa using hv)
      simp only [Nat.zero_mul, Nat.shiftLeft_zero, Nat.zero_or] at h1
      by_cases hz : v = 0
      · subst hz
        simp [decodeVarint, encodeVarint, h1]
      · simp [decodeVarint, encodeVarint, h1, hz]
    | succ e' =>
      have hcl : 0 + canonicalLen v ≤ 9 := by omega
      have h2 := decode_encVarCore_cont 10 v 0 0 0
        (List.replicate e' 0x80 ++ [0x00]) hfuel hcl
      have h3 := decode_padding e' (0 + canonicalLen v) (0 ||| v <<< (0 * 7))
        (if v = 0 then 0 + 1 else 0) (by omega)
      have henc : encodeVarint [] v (e' + 1) =
          modifyLast (fun b => b ||| 0x80) (encVarCore 10 v) ++
            (List.replicate e' 0x80 ++ [0x00]) := by
        simp [encodeVarint]
      have h4 : decodeVarintLoop (encodeVarint [] v (e' + 1)) 0 0 0 =
          ⟨[], 0 ||| v <<< (0 * 7), (if v = 0 then 0 + 1 else 0) + e' + 1,
            true⟩ := by
        rw [henc, h2, h3]
      simp only [Nat.zero_mul, Nat.shiftLeft_zero, Nat.zero_or] at h4
      by_cases hz : v = 0
      · subst hz
        simp only [if_pos rfl] at h4
        simp [decodeVarint, h4]
        omega
      · simp only [if_neg hz] at h4
        simp [decodeVarint, h4, hz]
  · cases e with
    | zero => simp [encodeVarint, encVarCore_length 10 v hfuel]
    | succ e' =>
      simp [encodeVarint, modifyLast_length, encVarCore_length 10 v hfuel]

/-- C3, witness instance of the amended theorem. -/
theorem c3_varint_roundtrip_witness :
    decodeVarint (encodeVarint [] 5 3) = ⟨[], 5, 3, true⟩ ∧
    (encodeVarint [] 5 3).length = canonicalLen 5 + 3 :=
  c3_varint_roundtrip_amended 5 3 (by norm_num)
    (by
      have h5 : Nat.log 128 5 = 0 := Nat.log_eq_zero_iff.mpr (Or.inl (by norm_num))
      simp [canonicalLen, h5])

/-! ## C6: failure characterisation of decodeVarint -/

/-- The failure condition of C6: the input runs out before a byte with a clear
continuation bit (necessarily within the first ten bytes), or the tenth byte
is reached (nine continuation bytes precede it) and exceeds 1. -/
def decodeFailSpec (src : List Nat) : Prop :=
  (src.length < 10 ∧ ∀ i < src.length, src.getD i 0 &&& 0x80 ≠ 0) ∨
  (10 ≤ src.length ∧ (∀ i < 9, src.getD i 0 &&& 0x80 ≠ 0) ∧ 1 < src.getD 9 0)

/-- Generalised loop invariant for C6. -/
theorem decodeVarintLoop_spec : ∀ (src : List Nat) (count acc extra : Nat),
    count ≤ 9 →
    (((decodeVarintLoop src count acc extra).ok = false ↔
      ((src.length < 10 - count ∧ ∀ i < src.length, src.getD i 0 &&& 0x80 ≠ 0) ∨
       (10 - count ≤ src.length ∧ (∀ i < 9 - count, src.getD i 0 &&& 0x80 ≠ 0) ∧
        1 < src.getD (9 - count) 0))) ∧
     ((decodeVarintLoop src count acc extra).ok = true →
      ∃ k, k ≤ 10 - count ∧ k ≤ src.length ∧
        (decodeVarintLoop src count acc extra).rest = src.drop k)) := by
  intro src
  induction src with
  | nil =>
    intro count acc extra hc
    constructor
    · simp [decodeVarintLoop]
      omega
    · intro h
      simp [decodeVarintLoop] at h
  | cons b src ih =>
    intro count acc extra hc
    by_cases hguard : count = 9 ∧ 1 < b
    · obtain ⟨h9, hb⟩ := hguard
      subst h9
      have hres : decodeVarintLoop (b :: src) 9 acc extra =
          ⟨[], acc, extra, false⟩ := by
        simp [decodeVarintLoop, hb]
      rw [hres]
      constructor
      · constructor
        · intro _
          right
          refine ⟨by simp only [List.length_cons]; omega, ?_, ?_⟩
          · intro i hi
            omega
          · simpa using hb
        · intro _
          rfl
      · intro h
        simp at h
    · by_cases hbreak : b &&& 0x80 = 0
      · have hres : decodeVarintLoop (b :: src) count acc extra =
            ⟨src, acc ||| (b &&& 0x7f) <<< (count * 7),
              if b &&& 0x7f = 0 then extra + 1 else 0, true⟩ := by
          simp [decodeVarintLoop, hguard, hbreak]
        constructor
        · rw [hres]
          apply iff_of_false
          · simp
          · rintro (⟨hlen, hall⟩ | ⟨hlen, hall, hlast⟩)
            · exact hall 0 (by simp) (by simpa using hbreak)
            · by_cases h9 : count = 9
              · subst h9
                have hb1 : ¬ 1 < b := fun hlt => hguard ⟨rfl, hlt⟩
                have h0 : (9 : Nat) - 9 = 0 := rfl
                rw [h0, List.getD_cons_zero] at hlast
                exact hb1 hlast
              · exact hall 0 (by omega) (by simpa using hbreak)
        · intro _
          refine ⟨1, by omega, by simp only [List.length_cons]; omega, ?_⟩
          rw [hres]
          rfl
      · have hc8 : count ≤ 8 := by
          by_contra hgt
          have h9 : count = 9 := by omega
          subst h9
          have hb1 : b ≤ 1 := Nat.not_lt.mp (fun h => hguard ⟨rfl, h⟩)
          have : b &&& 0x80 = 0 :=
            and_0x80_eq_zero (Nat.lt_of_le_of_lt hb1 (by norm_num))
          exact hbreak this
        have ihc := ih (count + 1)
          (acc ||| (b &&& 0x7f) <<< (count * 7))
          (if b &&& 0x7f = 0 then extra + 1 else 0) (by omega)
        have heq : decodeVarintLoop (b :: src) count acc extra =
            decodeVarintLoop src (count + 1)
              (acc ||| (b &&& 0x7f) <<< (count * 7))
              (if b &&& 0x7f = 0 then extra + 1 else 0) := by
          simp [decodeVarintLoop, hguard, hbreak]
        rw [heq]
        constructor
        · rw [ihc.1]
          constructor
          · rintro (⟨hlen, hall⟩ | ⟨hlen, hall, hlast⟩)
            · left
              refine ⟨by simp; omega, ?_⟩
              intro i hi
              match i with
              | 0 => simpa using hbreak
              | Nat.succ j =>
                simp only [List.getD_cons_succ]
                exact hall j (by simp at hi; omega)
            · right
              refine ⟨by simp; omega, ?_, ?_⟩
              · intro i hi
                match i with
                | 0 => simpa using hbreak
                | Nat.succ j =>
                  simp only [List.getD_cons_succ]
                  exact hall j (by omega)
              · rw [show (9 : Nat) - count = (9 - (count + 1)) + 1 by omega]
                simpa using hlast
          · rintro (⟨hlen, hall⟩ | ⟨hlen, hall, hlast⟩)
            · left
              refine ⟨by simp at hlen; omega, ?_⟩
              intro i hi
              have := hall (i + 1) (by simp; omega)
              simpa using this
            · right
              refine ⟨by simp at hlen; omega, ?_, ?_⟩
              · intro i hi
                have := hall (i + 1) (by omega)
                simpa using this
              · rw [show (9 : Nat) - (count + 1) = (9 - count) - 1 by omega]
                have := hlast
                rw [show (9 : Nat) - count = (9 - count - 1) + 1 by omega] at this
                simpa using this
        · intro hok
          obtain ⟨k, hk10, hklen, hkrest⟩ := ihc.2 hok
          exact ⟨k + 1, by omega, by simp; omega, by simpa using hkrest⟩

/-- C6: `decodeVarint` reads at most ten bytes, and fails exactly when the
input is exhausted before a byte with a clear continuation bit or when the
tenth byte read exceeds 1; in all other cases it succeeds. -/
theorem c6_decodeVarint_bounds (src : List Nat) :
    ((decodeVarint src).ok = false ↔ decodeFailSpec src) ∧
    ((decodeVarint src).ok = true →
      ∃ k, k ≤ 10 ∧ k ≤ src.length ∧ (decodeVarint src).rest = src.drop k) := by
  have h := decodeVarintLoop_spec src 0 0 0 (by omega)
  have hsame : (decodeVarint src).ok = (decodeVarintLoop src 0 0 0).ok ∧
      (decodeVarint src).rest = (decodeVarintLoop src 0 0 0).rest := by
    simp only [decodeVarint]
    by_cases hz : (decodeVarintLoop src 0 0 0).ok ∧
        (decodeVarintLoop src 0 0 0).value = 0
    · simp [hz]
    · simp [hz]
  rw [decodeFailSpec, hsame.1, hsame.2]
  simpa using h

/-- C6, witness instance. -/
theorem c6_decodeVarint_bounds_witness :
    ∃ k, k ≤ 10 ∧ k ≤ 1 ∧ (decodeVarint [0x2a]).rest = [0x2a].drop k :=
  (c6_decodeVarint_bounds [0x2a]).2 (by decide)

/-! ## Scanner: cursor primitives (scanner.go lines 119-198) -/

/-- scanner.go `Scanner`: the input text (as bytes) and the cursor. -/
structure Scanner where
  input : List Nat
  pos : Position
deriving DecidableEq, Repr

/-- `Scanner.isEOF(n)`: whether `pos.Offset + n >= len(Input)`. -/
def Scanner.isEOF (s : Scanner) (n : Nat) : Bool :=
  decide (s.input.length ≤ s.pos.offset + n)

/-- The byte under the cursor (only read behind `isEOF` guards, as in Go). -/
def Scanner.cur (s : Scanner) : Nat :=
  s.input.getD s.pos.offset 0

/-- One step of `Scanner.advance`: move one byte, tracking line/column. -/
def Scanner.advance1 (s : Scanner) : Scanner :=
  if s.isEOF 0 then s
  else if s.cur = 0x0a then
    ⟨s.input, ⟨s.pos.offset + 1, s.pos.line + 1, 0⟩⟩
  else
    ⟨s.input, ⟨s.pos.offset + 1, s.pos.line, s.pos.column + 1⟩⟩

/-- `Scanner.advance(n)`: advance up to `n` bytes, stopping at EOF. -/
def Scanner.advance : Scanner → Nat → Scanner
  | s, 0 => s
  | s, n + 1 => if s.isEOF 0 then s else s.advance1.advance n

/-- `Scanner.consume(n)`: advance `n` and return the consumed bytes, or
`none` if EOF was hit first (the cursor still moves, as in Go). -/
def Scanner.consume (s : Scanner) (n : Nat) : Option (List Nat) × Scanner :=
  let start := s.pos.offset
  let s2 := s.advance n
  if s2.pos.offset - start ≠ n then (none, s2)
  else (some ((s.input.drop start).take n), s2)

/-- `Scanner.consumeUntil(b)`: find `b`, consume past it, return the bytes
before it; `none` (cursor unmoved) if absent. -/
def Scanner.consumeUntil (s : Scanner) (b : Nat) : Option (List Nat) × Scanner :=
  match (s.input.drop s.pos.offset).findIdx? (· == b) with
  | some i => (some ((s.input.drop s.pos.offset).take i), s.advance (i + 1))
  | none => (none, s)

/-! ## Hex decoding (encoding/hex.DecodeString as used by the scanner) -/

/-- The value of a hex digit, or `none`. -/
def hexDigitVal (c : Nat) : Option Nat :=
  if 0x30 ≤ c ∧ c ≤ 0x39 then some (c - 0x30)
  else if 0x61 ≤ c ∧ c ≤ 0x66 then some (c - 0x61 + 10)
  else if 0x41 ≤ c ∧ c ≤ 0x46 then some (c - 0x41 + 10)
  else none

/-- `hex.DecodeString`: pairs of hex digits; fails on an odd count or a
non-hex byte. -/
def hexDecode : List Nat → Option (List Nat)
  | [] => some []
  | [_] => none
  | c1 :: c2 :: rest =>
    match hexDigitVal c1, hexDigitVal c2, hexDecode rest with
    | some h, some l, some bs => some ((h * 16 + l) :: bs)
    | _, _, _ => none

/-! ## Escape sequences and quoted strings (scanner.go lines 200-275) -/

/-- Is `c` an octal digit? (used only by the spec-modelled octal branch) -/
def isOctalDigit (c : Nat) : Bool :=
  decide (0x30 ≤ c ∧ c ≤ 0x37)

/-- scanner.go `parseEscapeSequence`, returning the escaped rune value.
The flag `m` enables the spec-modelled octal branch.

Modelled from the spec (m = true only): the scanner under src/ recognises
only `\n`, `\"`, `\\` and `\xHH`, but the repository's language.txt, its
scanner tests and spec section 4.2 also require `\NNN` with one to three
octal digits; that branch of the current Scanner.parseEscapeSequence is not
in src/, so it is modelled here from the spec's words: consume one to three
octal digits greedily and return their value (the one-byte bound is enforced
by the caller's existing `> 0xff` check). -/
def Scanner.parseEscapeSequence (m : Bool) (s : Scanner) :
    Except Err (Nat × Scanner) :=
  let s := s.advance 1
  if s.isEOF 0 then .error (.atPos s.pos .expectedEscapeChar)
  else
    let c := s.cur
    if c = 0x6e then .ok (0x0a, s.advance 1)
    else if c = 0x22 ∨ c = 0x5c then .ok (c, s.advance 1)
    else if c = 0x78 then
      let s := s.advance 1
      match s.consume 2 with
      | (none, s2) => .error (.atPos s2.pos .unfinishedEscape)
      | (some hexes, s2) =>
        match hexDecode hexes with
        | none => .error (.atPos s2.pos .badHexDigits)
        | some bytes => .ok (bytes.foldl (fun r b => r <<< 8 ||| b) 0, s2)
    else if m ∧ isOctalDigit c then
      let ds := ((s.input.drop s.pos.offset).take 3).takeWhile isOctalDigit
      .ok (ds.foldl (fun a d => a * 8 + (d - 0x30)) 0, s.advance ds.length)
    else .error (.atPos s.pos (.unknownEscape c))

/-- The loop body of scanner.go `parseQuotedString`, totalised by fuel
(every iteration advances the cursor by at least one byte). -/
def pqsGo (m : Bool) : Nat → Scanner → Position → List Nat →
    Except Err (Token × Scanner)
  | 0, _, _, _ => .error (.anon .fuelExhausted)
  | fuel + 1, s, start, bytes =>
    if s.isEOF 0 then .error (.atPos start .unmatchedQuote)
    else
      let c := s.cur
      if c = 0x22 then .ok (Token.bytes bytes 0 false start, s.advance 1)
      else if c = 0x5c then
        let escapeStart := s.pos
        match s.parseEscapeSequence m with
        | .error e => .error e
        | .ok (r, s2) =>
          if 0xff < r then .error (.atPos escapeStart .illegalQuotedEscape)
          else pqsGo m fuel s2 start (bytes ++ [r])
      else pqsGo m fuel (s.advance 1) start (bytes ++ [c])

/-- scanner.go `parseQuotedString` (cursor on the opening quote). -/
def Scanner.parseQuotedString (m : Bool) (s : Scanner) :
    Except Err (Token × Scanner) :=
  let s := s.advance 1
  pqsGo m (s.input.length + 1 - s.pos.offset) s s.pos []

/-! ## Whitespace, comments and symbols (scanner.go lines 277-335) -/

/-- Skip one `#` comment: advance past it, then to just past the next newline
(or EOF).  This is the comment loop of Scanner.next in closed form. -/
def Scanner.skipComment (s : Scanner) : Scanner :=
  let s := s.advance 1
  match (s.input.drop s.pos.offset).findIdx? (· == 0x0a) with
  | some i => s.advance (i + 1)
  | none => s.advance (s.input.length - s.pos.offset)

/-- The `goto again` loop of Scanner.next: skip whitespace and comments.
Fuel-totalised; each iteration advances at least one byte. -/
def skipWCGo : Nat → Scanner → Scanner
  | 0, s => s
  | fuel + 1, s =>
    if s.isEOF 0 then s
    else
      let c := s.cur
      if c = 0x20 ∨ c = 0x09 ∨ c = 0x0a ∨ c = 0x0d then
        skipWCGo fuel (s.advance 1)
      else if c = 0x23 then skipWCGo fuel s.skipComment
      else s

/-- Skip all leading whitespace and comments. -/
def Scanner.skipWC (s : Scanner) : Scanner :=
  skipWCGo (s.input.length + 1 - s.pos.offset) s

/-- The bytes that terminate a symbol (scanner.go line 328); under `m` the
spec-modelled `!` is also a terminator so that `1:!{` lexes as a tag followed
by the group opener. -/
def isBreakByte (m : Bool) (c : Nat) : Bool :=
  c == 0x20 || c == 0x09 || c == 0x0a || c == 0x0d || c == 0x7b || c == 0x7d ||
  c == 0x5b || c == 0x5d || c == 0x60 || c == 0x22 || c == 0x23 ||
  (m && c == 0x21)

/-- Consume a symbol: one byte unconditionally, then bytes up to the next
break byte or EOF (the Go loop, in closed form via `takeWhile`). -/
def Scanner.consumeSymbol (m : Bool) (s : Scanner) : List Nat × Scanner :=
  let start := s.pos.offset
  let s1 := s.advance 1
  let k := ((s1.input.drop s1.pos.offset).takeWhile
    (fun c => ! isBreakByte m c)).length
  let s2 := s1.advance k
  ((s.input.drop start).take (s2.pos.offset - start), s2)

/-! ## Symbol classification (scanner.go lines 107-117 and 337-491)

The Go code classifies symbols with regexes; here they are hand-compiled to
deterministic matchers.  For `regexpIntOrTag` the only regex alternation is
`([0-9]+|0x[0-9a-fA-F]+)`; its two branches cannot both lead to a full match
of the same symbol, and within each branch the greedy `+`/`?` operators never
need to give back characters (a digit can never begin the suffix, the `:`
group, or the end of the string), so maximal-munch matching is exact. -/

/-- Is `c` a decimal digit? -/
def isDigit (c : Nat) : Bool :=
  decide (0x30 ≤ c ∧ c ≤ 0x39)

/-- Is `c` a hex digit? -/
def isHexDigit (c : Nat) : Bool :=
  isDigit c || decide (0x61 ≤ c ∧ c ≤ 0x66) || decide (0x41 ≤ c ∧ c ≤ 0x46)

/-- Is `c` a regex word byte (`\w`)? -/
def isWordByte (c : Nat) : Bool :=
  isDigit c || decide (0x41 ≤ c ∧ c ≤ 0x5a) || decide (0x61 ≤ c ∧ c ≤ 0x7a) ||
  c == 0x5f

/-- The encoding-format suffix group `(z|i32|i64)?` of `regexpIntOrTag`. -/
inductive Sfx where
  | nosfx
  | z
  | i32
  | i64
deriving DecidableEq, Repr

/-- The capture groups of a `regexpIntOrTag` match: the sign, the digits of
the value (hex digits without the `0x` when `isHex`), the suffix, and the
wire-type group (`none` when no `:` is present; `some wt` captures the `\w*`
after the colon, possibly empty). -/
structure IntOrTag where
  neg : Bool
  digits : List Nat
  isHex : Bool
  sfx : Sfx
  colonPart : Option (List Nat)
deriving DecidableEq, Repr

/-- Match `(z|i32|i64)?(:(\w*))?$` against the remainder of a symbol. -/
def matchTail (r : List Nat) : Option (Sfx × Option (List Nat)) :=
  let p := if r.take 1 = [0x7a] then (Sfx.z, r.drop 1)
    else if r.take 3 = [0x69, 0x33, 0x32] then (Sfx.i32, r.drop 3)
    else if r.take 3 = [0x69, 0x36, 0x34] then (Sfx.i64, r.drop 3)
    else (Sfx.nosfx, r)
  match p.2 with
  | [] => some (p.1, none)
  | 0x3a :: w => if w.all isWordByte then some (p.1, some w) else none
  | _ => none

/-- Match the second alternative `0x[0-9a-fA-F]+` plus the tail. -/
def parseIntOrTagHex (neg : Bool) (s1 : List Nat) : Option IntOrTag :=
  match s1 with
  | 0x30 :: 0x78 :: t =>
    let d2 := t.takeWhile isHexDigit
    if d2 = [] then none
    else
      match matchTail (t.dropWhile isHexDigit) with
      | some (sfx, cp) => some ⟨neg, d2, true, sfx, cp⟩
      | none => none
  | _ => none

/-- Match `regexpIntOrTag` against a whole symbol. -/
def parseIntOrTag (sym : List Nat) : Option IntOrTag :=
  let neg := sym.take 1 = [0x2d]
  let s1 := if neg then sym.drop 1 else sym
  let d1 := s1.takeWhile isDigit
  if d1 ≠ [] then
    match matchTail (s1.dropWhile isDigit) with
    | some (sfx, cp) => some ⟨neg, d1, false, sfx, cp⟩
    | none => parseIntOrTagHex neg s1
  else parseIntOrTagHex neg s1

/-- The value of a digit in the given base (10 or 16), or `none`. -/
def digitVal (base : Nat) (c : Nat) : Option Nat :=
  if isDigit c then some (c - 0x30)
  else if base = 16 ∧ 0x61 ≤ c ∧ c ≤ 0x66 then some (c - 0x61 + 10)
  else if base = 16 ∧ 0x41 ≤ c ∧ c ≤ 0x46 then some (c - 0x41 + 10)
  else none

/-- The numeric value of a digit string, or `none` on a non-digit. -/
def digitsVal (base : Nat) (ds : List Nat) : Option Nat :=
  ds.foldl (fun acc c =>
    match acc, digitVal base c with
    | some a, some d => some (a * base + d)
    | _, _ => none) (some 0)

/-- `strconv.ParseInt(s, base, 64)` on an unsigned digit string: fails on a
non-digit or when the value exceeds `2^63 - 1`.  (Empty strings also fail in
Go; the matchers only produce non-empty digit strings.) -/
def parseInt64 (base : Nat) (ds : List Nat) : Option Nat :=
  if ds = [] then none
  else
    match digitsVal base ds with
    | some v => if v < 2 ^ 63 then some v else none
    | none => none

/-- `strconv.ParseInt(s, 10, 32)`: bound `2^31 - 1`. -/
def parseInt32 (ds : List Nat) : Option Nat :=
  if ds = [] then none
  else
    match digitsVal 10 ds with
    | some v => if v < 2 ^ 31 then some v else none
    | none => none

/-- Go `int64` zigzag `(value << 1) ^ (value >> 63)` on the 64-bit pattern. -/
def zigzag64 (v : Nat) : Nat :=
  ((v * 2) % 2 ^ 64) ^^^ (if v < 2 ^ 63 then 0 else 2 ^ 64 - 1)

/-- The signed value of a 64-bit pattern. -/
def toSigned64 (v : Nat) : Int :=
  if v < 2 ^ 63 then (v : Int) else (v : Int) - 2 ^ 64

/-- Little-endian bytes of the given width. -/
def leBytes : Nat → Nat → List Nat
  | 0, _ => []
  | w + 1, v => v % 256 :: leBytes w (v / 256)

/-! ## Floating-point literals

The scanner's float branch (scanner.go lines 428-465) parses the literal with
`strconv.ParseFloat` and encodes IEEE-754 bit patterns; those value-level
semantics are external floating-point arithmetic and are out of scope for
this embedding, so they enter as an oracle parameter.  The *syntax* (the two
regexes) and the surrounding control flow are embedded faithfully, and every
theorem below quantifies over the oracle; no settled claim exercises it. -/

/-- The floating-point semantics left abstract: `parse` is
`strconv.ParseFloat(fp, 64)` returning the float64 bit pattern (or `none` on
a parse/range error), `to32` converts a float64 pattern to a float32 pattern
exactly when `float64(float32(v)) == v`. -/
structure FloatOracle where
  parse : List Nat → Option Nat
  to32 : Nat → Option Nat

/-- The length of a suffix. -/
def sfxLen : Sfx → Nat
  | .nosfx => 0
  | .z => 1
  | .i32 => 3
  | .i64 => 3

/-- Match the final `(i32|i64)?$` group of the float regexes. -/
def matchFpSfxTail (r : List Nat) : Option Sfx :=
  if r = [] then some .nosfx
  else if r = [0x69, 0x33, 0x32] then some .i32
  else if r = [0x69, 0x36, 0x34] then some .i64
  else none

/-- `regexpDecFp`: `-?[0-9]+\.[0-9]+([eE]-?[0-9]+)?` then `(i32|i64)?`;
returns the literal (the first capture group) and the suffix. -/
def matchDecFp (sym : List Nat) : Option (List Nat × Sfx) :=
  let t0 := if sym.take 1 = [0x2d] then sym.drop 1 else sym
  let d1 := t0.takeWhile isDigit
  if d1 = [] then none
  else
    match t0.dropWhile isDigit with
    | 0x2e :: r2 =>
      let d2 := r2.takeWhile isDigit
      let r3 := r2.dropWhile isDigit
      if d2 = [] then none
      else
        let rexp : Option (List Nat) :=
          match r3 with
          | c :: r4 =>
            if c = 0x65 ∨ c = 0x45 then
              let r5 := if r4.take 1 = [0x2d] then r4.drop 1 else r4
              if r5.takeWhile isDigit = [] then none
              else some (r5.dropWhile isDigit)
            else some r3
          | [] => some []
        match rexp with
        | none => none
        | some r6 =>
          match matchFpSfxTail r6 with
          | some sfx => some (sym.take (sym.length - sfxLen sfx), sfx)
          | none => none
    | _ => none

/-- `regexpHexFp`: `-?0x[0-9a-fA-F]+\.[0-9a-fA-F]+([pP]-?[0-9]+)?` then
`(i32|i64)?`. -/
def matchHexFp (sym : List Nat) : Option (List Nat × Sfx) :=
  let t0 := if sym.take 1 = [0x2d] then sym.drop 1 else sym
  match t0 with
  | 0x30 :: 0x78 :: t1 =>
    let d1 := t1.takeWhile isHexDigit
    if d1 = [] then none
    else
      match t1.dropWhile isHexDigit with
      | 0x2e :: r2 =>
        let d2 := r2.takeWhile isHexDigit
        let r3 := r2.dropWhile isHexDigit
        if d2 = [] then none
        else
          let rexp : Option (List Nat) :=
            match r3 with
            | c :: r4 =>
              if c = 0x70 ∨ c = 0x50 then
                let r5 := if r4.take 1 = [0x2d] then r4.drop 1 else r4
                if r5.takeWhile isDigit = [] then none
                else some (r5.dropWhile isDigit)
              else some r3
            | [] => some []
          match rexp with
          | none => none
          | some r6 =>
            match matchFpSfxTail r6 with
            | some sfx => some (sym.take (sym.length - sfxLen sfx), sfx)
            | none => none
      | _ => none
  | _ => none

/-- Does the pattern occur at the head of the list? -/
def listStartsWith : List Nat → List Nat → Bool
  | [], _ => true
  | _ :: _, [] => false
  | p :: ps, c :: cs => p == c && listStartsWith ps cs

/-- `strings.Contains` on byte lists. -/
def containsSeq (pat : List Nat) : List Nat → Bool
  | [] => listStartsWith pat []
  | c :: cs => listStartsWith pat (c :: cs) || containsSeq pat cs

/-- `regexpLongForm`: `long-form:([0-9]+)`; returns the digits. -/
def matchLongForm (sym : List Nat) : Option (List Nat) :=
  -- "long-form:"
  let pre : List Nat := [0x6c, 0x6f, 0x6e, 0x67, 0x2d, 0x66, 0x6f, 0x72,
    0x6d, 0x3a]
  if listStartsWith pre sym then
    let rest := sym.drop 10
    if rest ≠ [] ∧ rest.all isDigit then some rest else none
  else none

/-! ## classifySymbol: the body of Scanner.next after the symbol is cut

(scanner.go lines 337-491).  `start` is the position of the symbol's first
byte (used by all errors), `endPos` the scanner position after the symbol
(Go stores `Pos: s.pos`, i.e. the post-symbol position, in these tokens).
The pending length modifier `lm` is consumed exactly where Go does. -/

/-- The wire-type expression after `:` (scanner.go lines 361-387): keyword,
or integer literal; `0x`-prefixed literals always fail because Go calls
`strconv.ParseInt(s, 16, 64)` which rejects the `0x` prefix. -/
def wireTypeVal (wt : List Nat) : Except Err (Nat × Bool) :=
  if wt = [] then .ok (0, true)
  else if wt = [0x56, 0x41, 0x52, 0x49, 0x4e, 0x54] then .ok (0, false)
  else if wt = [0x49, 0x36, 0x34] then .ok (1, false)
  else if wt = [0x4c, 0x45, 0x4e] then .ok (2, false)
  else if wt = [0x53, 0x47, 0x52, 0x4f, 0x55, 0x50] then .ok (3, false)
  else if wt = [0x45, 0x47, 0x52, 0x4f, 0x55, 0x50] then .ok (4, false)
  else if wt = [0x49, 0x33, 0x32] then .ok (5, false)
  else if wt.take 2 = [0x30, 0x78] then .error (.anon .intParseErr)
  else
    match parseInt64 10 wt with
    | some v => .ok (v, false)
    | none => .error (.anon .intParseErr)

/-- The integer-or-tag branch.  `m` enables the spec-modelled field-number
overflow check (see below). -/
def classifyIntOrTag (m : Bool) (it : IntOrTag) (start endPos : Position)
    (lm : Option Token) : Except Err (Token × Option Token) :=
  let base := if it.isHex then 16 else 10
  match parseInt64 base it.digits with
  | none => .error (.atPos start .intParseErr)
  | some d =>
    -- the 64-bit pattern of `value` after the optional negation
    let v0 : Nat := if it.neg then (2 ^ 64 - d) % 2 ^ 64 else d
    match it.colonPart with
    | some wt =>
      if it.sfx = .i32 ∨ it.sfx = .i64 then
        .error (.atPos start .fixedWidthOnTag)
      else
        match wireTypeVal wt with
        | .error (.anon e) => .error (.atPos start e)
        | .error e => .error e
        | .ok (wireType, inferred) =>
          if wireType > 7 then .error (.atPos start .wireTypeRange)
          else
            -- Modelled from the spec: the field-number overflow check
            -- (`Field-number overflow ... fails`, spec section 4.2) is not in
            -- the src/ snapshot of Scanner.next, but the repository's own
            -- test "field number too big" (0x2000000000000000:0) requires it.
            -- A positive value of 2^61 or more would shift out of the 64-bit
            -- tag range.
            if m ∧ v0 < 2 ^ 63 ∧ 2 ^ 61 ≤ v0 then
              .error (.atPos start .fieldNumberOverflow)
            else
              -- value <<= 3; value |= wireType (Go int64, wrapping)
              let v1 := ((v0 <<< 3) % 2 ^ 64) ||| wireType
              classifyEncode v1 inferred it.sfx start endPos lm
    | none => classifyEncode v0 false it.sfx start endPos lm
where
  /-- The encoding switch on the suffix (scanner.go lines 397-425). -/
  classifyEncode (v1 : Nat) (inferred : Bool) (sfx : Sfx)
      (start endPos : Position) (lm : Option Token) :
      Except Err (Token × Option Token) :=
    match sfx with
    | .z =>
      let v2 := zigzag64 v1
      let lfLen := match lm with
        | some t => t.length
        | none => 0
      .ok (Token.bytes (encodeVarint [] v2 lfLen) 0 inferred endPos, none)
    | .nosfx =>
      let lfLen := match lm with
        | some t => t.length
        | none => 0
      .ok (Token.bytes (encodeVarint [] v1 lfLen) 0 inferred endPos, none)
    | .i32 =>
      if 2 ^ 32 ≤ toSigned64 v1 ∨ toSigned64 v1 < -(2 ^ 32) then
        .error (.atPos start .fit32)
      else .ok (Token.bytes (leBytes 4 (v1 % 2 ^ 32)) 5 inferred endPos, lm)
    | .i64 => .ok (Token.bytes (leBytes 8 v1) 1 inferred endPos, lm)

/-- The float branch (scanner.go lines 428-465): syntax embedded, value
semantics from the oracle. -/
def classifyFp (fo : FloatOracle) (lit : List Nat) (sfx : Sfx)
    (start endPos : Position) (lm : Option Token) :
    Except Err (Token × Option Token) :=
  -- fp += "p0" for hex floats without an exponent
  let fp := if containsSeq [0x30, 0x78] lit &&
      ! lit.any (fun c => c == 0x70 || c == 0x50) then
    lit ++ [0x70, 0x30]
  else lit
  match fo.parse fp with
  | none => .error (.atPos start .floatErr)
  | some bits =>
    match sfx with
    | .i32 =>
      match fo.to32 bits with
      | none => .error (.atPos start .fit32)
      | some b32 => .ok (Token.bytes (leBytes 4 b32) 5 false endPos, lm)
    | _ => .ok (Token.bytes (leBytes 8 bits) 1 false endPos, lm)

/-- Classify a symbol (scanner.go lines 337-491): integer/tag, float,
long-form modifier, reserved word, or error. -/
def classifySymbol (m : Bool) (fo : FloatOracle) (sym : List Nat)
    (start endPos : Position) (lm : Option Token) :
    Except Err (Token × Option Token) :=
  match parseIntOrTag sym with
  | some it => classifyIntOrTag m it start endPos lm
  | none =>
  match matchDecFp sym with
  | some (lit, sfx) => classifyFp fo lit sfx start endPos lm
  | none =>
  match matchHexFp sym with
  | some (lit, sfx) => classifyFp fo lit sfx start endPos lm
  | none =>
  match matchLongForm sym with
  | some ds =>
    match parseInt32 ds with
    | none => .error (.atPos start .intParseErr)
    | some n => .ok (Token.longForm n, lm)
  | none =>
  -- "true"
  if sym = [0x74, 0x72, 0x75, 0x65] then
    .ok (Token.bytes [1] 0 false endPos, lm)
  -- "false"
  else if sym = [0x66, 0x61, 0x6c, 0x73, 0x65] then
    .ok (Token.bytes [0] 0 false endPos, lm)
  -- "inf32" and "-inf32" (the source emits the same bytes for both)
  else if sym = [0x69, 0x6e, 0x66, 0x33, 0x32] ∨
      sym = [0x2d, 0x69, 0x6e, 0x66, 0x33, 0x32] then
    .ok (Token.bytes [0x00, 0x00, 0x80, 0x7f] 5 false endPos, lm)
  -- "inf64"
  else if sym = [0x69, 0x6e, 0x66, 0x36, 0x34] then
    .ok (Token.bytes [0x00, 0x00, 0x00, 0x00, 0x00, 0x00, 0xf0, 0x7f] 1
      false endPos, lm)
  -- "-inf64"
  else if sym = [0x2d, 0x69, 0x6e, 0x66, 0x36, 0x34] then
    .ok (Token.bytes [0x00, 0x00, 0x00, 0x00, 0x00, 0x00, 0xf0, 0xff] 1
      false endPos, lm)
  else .error (.anon (.unrecognizedSymbol sym))

/-! ## Scanner.next (scanner.go lines 277-492) -/

/-- scanner.go `Scanner.next`: skip whitespace/comments, then dispatch on the
first byte.  The pending length modifier is threaded through (the Go code
passes `**token`).  Under `m` the spec-modelled `!{` opener is recognised.

Modelled from the spec (m = true only): `the scanner recognises !{ as an
alternative opener` (spec section 4.3); this branch of the current
Scanner.next is not in src/ although the repository's scanner tests and the
disassembler (which emits `!{`) require it. -/
def Scanner.next (m : Bool) (fo : FloatOracle) (s : Scanner)
    (lm : Option Token) : Except Err (Token × Scanner × Option Token) :=
  let s := s.skipWC
  if s.isEOF 0 then .ok (Token.punct .eof s.pos, s, lm)
  else
    let c := s.cur
    if c = 0x7b then
      let s2 := s.advance 1
      .ok (Token.punct .leftCurly s2.pos, s2, lm)
    else if c = 0x7d then
      let s2 := s.advance 1
      .ok (Token.punct .rightCurly s2.pos, s2, lm)
    else if c = 0x22 then
      match s.parseQuotedString m with
      | .error e => .error e
      | .ok (t, s2) => .ok (t, s2, lm)
    else if c = 0x60 then
      let s1 := s.advance 1
      match s1.consumeUntil 0x60 with
      | (none, s2) => .error (.atPos s2.pos .unmatchedBacktick)
      | (some hexStr, s2) =>
        match hexDecode hexStr with
        | none => .error (.atPos s2.pos .badHexDigits)
        | some bytes => .ok (Token.bytes bytes 0 false s2.pos, s2, lm)
    else if m ∧ c = 0x21 then
      -- Modelled from the spec: the `!{` group opener.
      if s.isEOF 1 ∨ s.input.getD (s.pos.offset + 1) 0 ≠ 0x7b then
        .error (.atPos s.pos (.unrecognizedSymbol [0x21]))
      else
        let s2 := s.advance 2
        .ok (Token.punct .groupCurly s2.pos, s2, lm)
    else
      let start := s.pos
      match s.consumeSymbol m with
      | (sym, s2) =>
        match classifySymbol m fo sym start s2.pos lm with
        | .error e => .error e
        | .ok (t, lm2) => .ok (t, s2, lm2)

/-! ## The assembler loop: Scanner.exec (scanner.go lines 494-566) -/

/-- The enclosing frame of an `exec` activation: top level, a `{` block, or a
spec-modelled `!{` group. -/
inductive Frame where
  | top
  | block (tok : Token)
  | group (tok : Token)
deriving DecidableEq, Repr

/-- Is this a group frame? -/
def Frame.isGroup : Frame → Bool
  | .group _ => true
  | _ => false

/-- The position stored in a pending length modifier (zero if absent; only
read when present). -/
def lmPos : Option Token → Position
  | some t => t.pos
  | none => zeroPos

/-- `out[i] |= w` (scanner.go line 515). -/
def patchOr (out : List Nat) (i : Nat) (w : Nat) : List Nat :=
  out.set i (out.getD i 0 ||| w)

/-- scanner.go `Scanner.exec`, fuel-totalised.  State: the output buffer
`out`, the pending length modifier `lm`, and the pending inferred-type index
`iti`.  A fuel unit is spent per loop iteration and per recursion into a
block, and every token except EOF consumes at least one input byte, so the
wrapper's fuel is sufficient.

The `groupCurly` case is modelled from the spec (m = true only), spec
section 4.3: `!{` following an inferred tag ORs wire type 3 (SGROUP) into
the pending tag byte, the inner block is encoded without a length prefix,
and at the matching `}` a tag with the same field number and wire type 4
(EGROUP) is emitted; a trailing `long-form:N` inside the group is applied to
that EGROUP tag varint, which is why a `}` closing a group frame is exempt
from the `length modifier was not followed by ...` check. -/
def execGo (m : Bool) (fo : FloatOracle) :
    Nat → Scanner → Frame → List Nat → Option Token → Option Nat →
    Except Err (List Nat × Scanner × Option Token)
  | 0, _, _, _, _, _ => .error (.anon .fuelExhausted)
  | fuel + 1, s, frame, out, lm, iti =>
    match s.next m fo lm with
    | .error e => .error e
    | .ok (tok, s2, lm2) =>
      if lm2.isSome ∧ tok.kind ≠ .leftCurly ∧
          ¬(tok.kind = .rightCurly ∧ frame.isGroup) then
        .error (.atPos (lmPos lm2) .lengthModifierMisplaced)
      else
        match tok.kind with
        | .bytes =>
          let out1 := match iti with
            | some i => patchOr out i tok.wireType
            | none => out
          let iti1 : Option Nat := if tok.inferredType then some out1.length
            else none
          execGo m fo fuel s2 frame (out1 ++ tok.value) lm2 iti1
        | .longForm => execGo m fo fuel s2 frame out (some tok) iti
        | .leftCurly =>
          let out1 := match iti with
            | some i => patchOr out i 2
            | none => out
          match execGo m fo fuel s2 (.block tok) [] none none with
          | .error e => .error e
          | .ok (child, s3, _) =>
            let lengthOverride := match lm2 with
              | some mt => if mt.kind = .longForm then mt.length else 0
              | none => 0
            execGo m fo fuel s3 frame
              (encodeVarint out1 child.length lengthOverride ++ child)
              none none
        | .groupCurly =>
          -- Modelled from the spec (see the doc comment).
          match iti with
          | none => .error (.atPos tok.pos .groupWithoutTag)
          | some i =>
            let out1 := patchOr out i 3
            let fieldNum := (decodeVarint (out1.drop i)).value >>> 3
            match execGo m fo fuel s2 (.group tok) [] none none with
            | .error e => .error e
            | .ok (child, s3, clm) =>
              let egLen := match clm with
                | some mt => if mt.kind = .longForm then mt.length else 0
                | none => 0
              execGo m fo fuel s3 frame
                (out1 ++ child ++
                  encodeVarint [] ((fieldNum <<< 3) ||| 4) egLen)
                none none
        | .rightCurly =>
          match frame with
          | .top => .error (.atPos tok.pos .unmatchedRightCurly)
          | .block _ => .ok (out, s2, lm2)
          | .group _ => .ok (out, s2, lm2)
        | .eof =>
          match frame with
          | .top => .ok (out, s2, lm2)
          | .block tk => .error (.atPos tk.pos .unmatchedLeftCurly)
          | .group tk => .error (.atPos tk.pos .unmatchedLeftCurly)

/-- Run `exec` from a scanner state with sufficient fuel. -/
def Scanner.exec (m : Bool) (fo : FloatOracle) (s : Scanner) (frame : Frame) :
    Except Err (List Nat × Scanner × Option Token) :=
  execGo m fo (2 * s.input.length + 4) s frame [] none none

/-- scanner.go `Scanner.Exec` on the code under src/ (no group support). -/
def Scanner.Exec (fo : FloatOracle) (s : Scanner) : Except Err (List Nat) :=
  (s.exec false fo .top).map (·.1)

/-- `Exec` over the spec-modelled scanner (`m = true`): group syntax, octal
escapes and the field-number overflow check added as the spec describes. -/
def Scanner.ExecSpec (fo : FloatOracle) (s : Scanner) :
    Except Err (List Nat) :=
  (s.exec true fo .top).map (·.1)

/-- A scanner at the start of the given input. -/
def mkScanner (input : List Nat) : Scanner := ⟨input, zeroPos⟩

/-- A trivial float oracle for running the embedding on concrete inputs that
contain no float literals. -/
def noFloats : FloatOracle := ⟨fun _ => none, fun _ => none⟩

/-! ## Cursor lemmas -/

theorem advance1_input (s : Scanner) : s.advance1.input = s.input := by
  unfold Scanner.advance1
  split_ifs <;> rfl

theorem advance_input (s : Scanner) (n : Nat) :
    (s.advance n).input = s.input := by
  induction n generalizing s with
  | zero => rfl
  | succ n ih =>
    unfold Scanner.advance
    split_ifs with h
    · rfl
    · rw [ih, advance1_input]

theorem advance1_offset (s : Scanner) (h : ¬s.isEOF 0 = true) :
    s.advance1.pos.offset = s.pos.offset + 1 := by
  unfold Scanner.advance1
  rw [if_neg h]
  split_ifs <;> rfl

theorem advance_offset_le_add (s : Scanner) (n : Nat) :
    (s.advance n).pos.offset ≤ s.pos.offset + n := by
  induction n generalizing s with
  | zero => simp [Scanner.advance]
  | succ n ih =>
    unfold Scanner.advance
    split_ifs with h
    · omega
    · have h1 := ih s.advance1
      rw [advance1_offset s h] at h1
      omega

theorem advance_offset_le_len (s : Scanner) (n : Nat)
    (h : s.pos.offset ≤ s.input.length) :
    (s.advance n).pos.offset ≤ s.input.length := by
  induction n generalizing s with
  | zero => simpa [Scanner.advance]
  | succ n ih =>
    unfold Scanner.advance
    split_ifs with he
    · exact h
    · have hlt : s.pos.offset < s.input.length := by
        simp [Scanner.isEOF] at he
        omega
      have h2 := ih s.advance1
      rw [advance1_input] at h2
      exact h2 (by rw [advance1_offset s he]; omega)

theorem advance_offset_ge (s : Scanner) (n : Nat) :
    s.pos.offset ≤ (s.advance n).pos.offset := by
  induction n generalizing s with
  | zero => simp [Scanner.advance]
  | succ n ih =>
    unfold Scanner.advance
    split_ifs with h
    · omega
    · have h1 := ih s.advance1
      rw [advance1_offset s h] at h1
      omega

/-- When `consume` succeeds it returns exactly `n` bytes. -/
theorem consume_some_length (s : Scanner) (n : Nat) (l : List Nat)
    (s2 : Scanner) (h : s.consume n = (some l, s2)) : l.length = n := by
  have h : (if (s.advance n).pos.offset - s.pos.offset ≠ n then
      ((none : Option (List Nat)), s.advance n)
    else (some ((s.input.drop s.pos.offset).take n), s.advance n))
      = (some l, s2) := h
  split_ifs at h with hd
  · simp at h
  · have heq : ((s.input.drop s.pos.offset).take n) = l := by
      have := congrArg Prod.fst h
      simpa using this
    by_cases hle : s.pos.offset ≤ s.input.length
    · have h1 := advance_offset_le_len s n hle
      have h3 := advance_offset_ge s n
      rw [← heq]
      simp only [List.length_take, List.length_drop]
      omega
    · -- the cursor is past the end: advance cannot move, so n = 0
      have h2 : s.advance n = s := by
        cases n with
        | zero => rfl
        | succ k =>
          unfold Scanner.advance
          rw [if_pos]
          simp [Scanner.isEOF]
          omega
      rw [h2] at hd
      simp at hd
      subst hd
      rw [← heq]
      simp


theorem hexDigitVal_le (c v : Nat) (h : hexDigitVal c = some v) : v ≤ 15 := by
  unfold hexDigitVal at h
  split_ifs at h with h1 h2 h3
  · injection h with h; omega
  · injection h with h; omega
  · injection h with h; omega

/-- Any list `hexDecode` produces from a two-byte input is a single byte. -/
theorem hexDecode_pair_shape (l out : List Nat) (hlen : l.length = 2)
    (h : hexDecode l = some out) : ∃ b, out = [b] ∧ b ≤ 0xff := by
  match l, hlen with
  | [c1, c2], _ =>
    unfold hexDecode at h
    cases h1 : hexDigitVal c1 with
    | none => rw [h1] at h; simp at h
    | some hv =>
      cases h2 : hexDigitVal c2 with
      | none => rw [h1, h2] at h; simp at h
      | some lv =>
        rw [h1, h2] at h
        simp [hexDecode] at h
        have hb1 : hv ≤ 15 := hexDigitVal_le _ _ h1
        have hb2 : lv ≤ 15 := hexDigitVal_le _ _ h2
        refine ⟨hv * 16 + lv, by simp [← h], by omega⟩

/-- The escape parser on success: value at most 0xff (for m = false). -/
theorem parseEscape_le (s : Scanner) (r : Nat) (s2 : Scanner)
    (h : s.parseEscapeSequence false = .ok (r, s2)) : r ≤ 0xff := by
  unfold Scanner.parseEscapeSequence at h
  dsimp only at h
  split_ifs at h with h1 h2 h3 h4 h5
  · obtain ⟨hr, _⟩ := h
    omega
  · obtain ⟨hr, _⟩ := h
    rcases h3 with h3 | h3 <;> omega
  · rcases hc : ((s.advance 1).advance 1).consume 2 with ⟨fst, s4⟩
    rw [hc] at h
    cases fst with
    | none => simp at h
    | some hexes =>
      dsimp only at h
      cases hd : hexDecode hexes with
      | none => rw [hd] at h; simp at h
      | some bytes =>
        rw [hd] at h
        dsimp only at h
        have hlen : hexes.length = 2 := consume_some_length _ 2 _ _ hc
        obtain ⟨b, hb, hble⟩ := hexDecode_pair_shape hexes bytes hlen hd
        subst hb
        simp at h
        obtain ⟨hr, _⟩ := h
        omega
  · exact h5.1.elim


/-- The errors parseEscapeSequence can produce (for any `m`): never the
quoted-string `illegal escape` error. -/
theorem parseEscape_error_shape (m : Bool) (s : Scanner) (e : Err)
    (h : s.parseEscapeSequence m = .error e) :
    ∃ p, e = .atPos p .expectedEscapeChar ∨ e = .atPos p .unfinishedEscape ∨
      e = .atPos p .badHexDigits ∨ ∃ c, e = .atPos p (.unknownEscape c) := by
  unfold Scanner.parseEscapeSequence at h
  dsimp only at h
  split_ifs at h with h1 h2 h3 h4 h5
  · simp at h
    exact ⟨(s.advance 1).pos, Or.inl h.symm⟩
  · rcases hc : ((s.advance 1).advance 1).consume 2 with ⟨fst, s4⟩
    rw [hc] at h
    cases fst with
    | none =>
      dsimp only at h
      simp at h
      exact ⟨s4.pos, Or.inr (Or.inl h.symm)⟩
    | some hexes =>
      dsimp only at h
      cases hd : hexDecode hexes with
      | none =>
        rw [hd] at h
        dsimp only at h
        simp at h
        exact ⟨s4.pos, Or.inr (Or.inr (Or.inl h.symm))⟩
      | some bytes =>
        rw [hd] at h
        simp at h
  · simp at h
    exact ⟨(s.advance 1).pos, Or.inr (Or.inr (Or.inr ⟨(s.advance 1).cur,
      h.symm⟩))⟩

/-- Core of C10(b): no input makes parseQuotedString (src scanner) return
the `illegal escape for quoted string` error. -/
theorem pqsGo_no_illegal (fuel : Nat) : ∀ (s : Scanner) (start : Position)
    (bytes : List Nat) (p : Position),
    pqsGo false fuel s start bytes ≠
      .error (.atPos p .illegalQuotedEscape) := by
  induction fuel with
  | zero =>
    intro s start bytes p h
    simp [pqsGo] at h
  | succ fuel ih =>
    intro s start bytes p h
    unfold pqsGo at h
    dsimp only at h
    split_ifs at h with h1 h2 h3
    · simp at h
    · cases hpe : s.parseEscapeSequence false with
      | error e =>
        rw [hpe] at h
        dsimp only at h
        obtain ⟨q, hq⟩ := parseEscape_error_shape false s e hpe
        simp at h
        rcases hq with hq | hq | hq | ⟨c, hq⟩ <;> subst hq <;> simp_all
      | ok rs =>
        obtain ⟨r, s2⟩ := rs
        rw [hpe] at h
        dsimp only at h
        have hr := parseEscape_le s r s2 hpe
        rw [if_neg (by omega)] at h
        exact ih s2 start (bytes ++ [r]) p h
    · exact ih (s.advance 1) start (bytes ++ [s.cur]) p h

/-- C10: every escape sequence accepted by the src parseEscapeSequence
(only `\n`, `\22`, backslash, `\xHH` with two hex digits) yields a value
of at most 0xFF, so the `> 0xff` rejection branch in parseQuotedString is
unreachable: no input makes parseQuotedString return the `illegal escape for
quoted string` error (a quoted string either lexes or fails in
parseEscapeSequence / on the unmatched quote). -/
theorem c10_illegal_escape_unreachable :
    (∀ (s : Scanner) (r : Nat) (s2 : Scanner),
      s.parseEscapeSequence false = .ok (r, s2) → r ≤ 0xff) ∧
    (∀ (s : Scanner) (p : Position),
      s.parseQuotedString false ≠ .error (.atPos p .illegalQuotedEscape)) := by
  constructor
  · exact parseEscape_le
  · intro s p
    unfold Scanner.parseQuotedString
    exact pqsGo_no_illegal _ _ _ _ _

/-- C10, witness instance (the escape `\x41` read from the input). -/
theorem c10_illegal_escape_unreachable_witness : (0x41 : Nat) ≤ 0xff :=
  c10_illegal_escape_unreachable.1 (mkScanner [0x5c, 0x78, 0x34, 0x31]) 0x41
    ⟨[0x5c, 0x78, 0x34, 0x31], ⟨4, 0, 4⟩⟩ (by decide)


/-! ## Helpers for whole-input symbolic runs -/

/-- If the first byte is not whitespace or `#`, no skipping happens. -/
theorem skipWC_eq_self (s : Scanner) (h0 : s.isEOF 0 = false)
    (h1 : s.cur ≠ 0x20) (h2 : s.cur ≠ 0x09) (h3 : s.cur ≠ 0x0a)
    (h4 : s.cur ≠ 0x0d) (h5 : s.cur ≠ 0x23) : s.skipWC = s := by
  unfold Scanner.skipWC
  have hlt : s.pos.offset < s.input.length := by
    simp [Scanner.isEOF] at h0
    omega
  obtain ⟨k, hk⟩ : ∃ k, s.input.length + 1 - s.pos.offset = k + 1 :=
    ⟨s.input.length - s.pos.offset, by omega⟩
  rw [hk]
  unfold skipWCGo
  rw [if_neg (by simp [h0])]
  rw [if_neg (by simp [h1, h2, h3, h4])]
  rw [if_neg (by simp [h5])]

/-! ## C7: the long-form misplacement error reports the zero position

The input below is ` long-form:1 true` (a leading space, so the long-form
token does not start at offset 0). -/

def c7Input : List Nat :=
  [0x20, 0x6c, 0x6f, 0x6e, 0x67, 0x2d, 0x66, 0x6f, 0x72, 0x6d, 0x3a, 0x31,
   0x20, 0x74, 0x72, 0x75, 0x65]

/-- C7 (code bug): on ` long-form:1 true` the scanner produces the long-form
token for the symbol starting at offset 1, but builds it without populating
`Pos` (scanner.go line 473), so the `length modifier was not followed by
'{' or varint` error reports the zero position instead of the token's
position `<input>:1:2` as the claim (and the token struct's documented `Pos`
semantics) require. -/
theorem c7_longform_error_position :
    ((mkScanner c7Input).next false noFloats none =
      .ok (Token.longForm 1, ⟨c7Input, ⟨12, 0, 12⟩⟩, none)) ∧
    (Token.longForm 1).pos = zeroPos ∧
    ((mkScanner c7Input).Exec noFloats =
      .error (.atPos zeroPos .lengthModifierMisplaced)) ∧
    zeroPos ≠ ⟨1, 0, 1⟩ := by
  decide

/-! ## C8: `z` suffix on a tag expression is accepted, not rejected -/

/-- C8, counterexample: the repository's own test vector `9z:7` (scanner
tests, "unusual field numbers") carries the suffix `z` and a wire-type
expression, yet assembles successfully to `9e 01` (the zigzag of the tag
`(9 << 3) | 7 = 79`), contradicting the claim that a `z` suffix on a tag
fails.  Only `i32`/`i64` are rejected. -/
theorem c8_counterexample :
    (mkScanner [0x39, 0x7a, 0x3a, 0x37]).Exec noFloats = .ok [0x9e, 0x01] := by
  decide

/-! ## C2: group syntax (spec-modelled) -/

/-- The input `1: !{2: 5}`. -/
def c2Input : List Nat :=
  [0x31, 0x3a, 0x20, 0x21, 0x7b, 0x32, 0x3a, 0x20, 0x35, 0x7d]

/-- C2 (spec-modelled): the scanner recognises `!{` as an alternative block
opener (any state whose cursor sits on `!` immediately followed by `{`
produces the group-opener token), and assembling `1: !{2: 5}` sets the
inferred tag's wire type to 3 (SGROUP, byte 0x0b), encodes the inner block
without a length prefix, and emits the matching EGROUP tag 0x0c at `}`:
the output is exactly `0B 10 05 0C`. -/
theorem c2_group_assembly :
    (∀ (s : Scanner) (fo : FloatOracle) (lm : Option Token),
      s.isEOF 0 = false → s.cur = 0x21 → s.isEOF 1 = false →
      s.input.getD (s.pos.offset + 1) 0 = 0x7b →
      s.next true fo lm =
        .ok (Token.punct .groupCurly (s.advance 2).pos, s.advance 2, lm)) ∧
    (mkScanner c2Input).ExecSpec noFloats = .ok [0x0b, 0x10, 0x05, 0x0c] := by
  constructor
  · intro s fo lm h0 hc h1 hbrace
    simp only [List.getD, List.get?_eq_getElem?] at hbrace
    unfold Scanner.next
    rw [skipWC_eq_self s h0 (by omega) (by omega) (by omega) (by omega)
      (by omega)]
    rw [if_neg (by simp [h0])]
    dsimp only
    rw [if_neg (by omega), if_neg (by omega), if_neg (by omega),
      if_neg (by omega)]
    rw [if_pos (by simp [hc])]
    rw [if_neg (by simp [h1, hbrace])]
  · decide

/-- C2, witness instance of the scanner-recognition conjunct on the concrete
input `!{`. -/
theorem c2_group_assembly_witness :
    Scanner.next true noFloats (mkScanner [0x21, 0x7b]) none =
      .ok (Token.punct .groupCurly ((mkScanner [0x21, 0x7b]).advance 2).pos,
        (mkScanner [0x21, 0x7b]).advance 2, none) :=
  c2_group_assembly.1 (mkScanner [0x21, 0x7b]) noFloats none (by decide)
    (by decide) (by decide) (by decide)

/-! ## C4: octal escapes in quoted strings (spec-modelled) -/

/-- C4 (spec-modelled): inside a quoted string the scanner recognises octal
escapes of one, two or three octal digits; the escape contributes the single
byte of its value, and a three-digit escape whose value exceeds 255 fails at
lex with the `illegal escape for quoted string` error.  Each conjunct runs
parseQuotedString on the whole quoted string `"\d...d"`. -/
theorem c4_octal_escapes :
    (∀ a : Fin 8,
      Scanner.parseQuotedString true
          (mkScanner [0x22, 0x5c, 0x30 + a.val, 0x22]) =
        .ok (Token.bytes [a.val] 0 false ⟨1, 0, 1⟩,
          ⟨[0x22, 0x5c, 0x30 + a.val, 0x22], ⟨4, 0, 4⟩⟩)) ∧
    (∀ a b : Fin 8,
      Scanner.parseQuotedString true
          (mkScanner [0x22, 0x5c, 0x30 + a.val, 0x30 + b.val, 0x22]) =
        .ok (Token.bytes [8 * a.val + b.val] 0 false ⟨1, 0, 1⟩,
          ⟨[0x22, 0x5c, 0x30 + a.val, 0x30 + b.val, 0x22], ⟨5, 0, 5⟩⟩)) ∧
    (∀ a b c : Fin 8,
      (64 * a.val + 8 * b.val + c.val ≤ 0xff →
        Scanner.parseQuotedString true
            (mkScanner
              [0x22, 0x5c, 0x30 + a.val, 0x30 + b.val, 0x30 + c.val, 0x22]) =
          .ok (Token.bytes [64 * a.val + 8 * b.val + c.val] 0 false ⟨1, 0, 1⟩,
            ⟨[0x22, 0x5c, 0x30 + a.val, 0x30 + b.val, 0x30 + c.val, 0x22],
              ⟨6, 0, 6⟩⟩)) ∧
      (0xff < 64 * a.val + 8 * b.val + c.val →
        Scanner.parseQuotedString true
            (mkScanner
              [0x22, 0x5c, 0x30 + a.val, 0x30 + b.val, 0x30 + c.val, 0x22]) =
          .error (.atPos ⟨1, 0, 1⟩ .illegalQuotedEscape))) := by
  decide

/-- C4, witness instance: the octal escape `\127` in a quoted string
produces the byte 0x57. -/
theorem c4_octal_escapes_witness :
    Scanner.parseQuotedString true
        (mkScanner [0x22, 0x5c, 0x31, 0x32, 0x37, 0x22]) =
      .ok (Token.bytes [0x57] 0 false ⟨1, 0, 1⟩,
        ⟨[0x22, 0x5c, 0x31, 0x32, 0x37, 0x22], ⟨6, 0, 6⟩⟩) :=
  (c4_octal_escapes.2.2 1 2 7).1 (by decide)


/-! ## Symbolic whole-symbol runs (shared by the C5 and C8 theorems) -/

theorem takeWhile_all (p : Nat → Bool) : ∀ l : List Nat,
    (∀ c ∈ l, p c = true) → l.takeWhile p = l := by
  intro l h
  induction l with
  | nil => rfl
  | cons x xs ih =>
    rw [List.takeWhile_cons, if_pos (h x (by simp)),
      ih (fun c hc => h c (by simp [hc]))]

theorem takeWhile_append_stop (p : Nat → Bool) (xs : List Nat) (y : Nat)
    (ys : List Nat) (hxs : ∀ c ∈ xs, p c = true) (hy : p y = false) :
    (xs ++ y :: ys).takeWhile p = xs := by
  induction xs with
  | nil => simp [List.takeWhile_cons, hy]
  | cons x xs ih =>
    rw [List.cons_append, List.takeWhile_cons, if_pos (hxs x (by simp)),
      ih (fun c hc => hxs c (by simp [hc]))]

theorem dropWhile_append_stop (p : Nat → Bool) (xs : List Nat) (y : Nat)
    (ys : List Nat) (hxs : ∀ c ∈ xs, p c = true) (hy : p y = false) :
    (xs ++ y :: ys).dropWhile p = y :: ys := by
  induction xs with
  | nil => simp [List.dropWhile_cons, hy]
  | cons x xs ih =>
    rw [List.cons_append, List.dropWhile_cons, if_pos (hxs x (by simp)),
      ih (fun c hc => hxs c (by simp [hc]))]

/-- Advancing through newline-free input moves the offset and column
linearly. -/
theorem advance_no_nl : ∀ (n : Nat) (s : Scanner),
    (∀ b ∈ s.input, b ≠ 0x0a) → s.pos.offset + n ≤ s.input.length →
    s.advance n = ⟨s.input, ⟨s.pos.offset + n, s.pos.line,
      s.pos.column + n⟩⟩ := by
  intro n
  induction n with
  | zero => intro s _ _; simp [Scanner.advance]
  | succ n ih =>
    intro s hnl hle
    have hlt : s.pos.offset < s.input.length := by omega
    have heof : s.isEOF 0 = false := by
      simp [Scanner.isEOF]
      omega
    have hcur : s.cur ≠ 0x0a := by
      have hmem : s.cur ∈ s.input := by
        unfold Scanner.cur
        rw [List.getD_eq_getElem s.input 0 hlt]
        exact List.getElem_mem _
      exact hnl _ hmem
    unfold Scanner.advance
    rw [if_neg (by simp [heof])]
    have ha1 : s.advance1 = ⟨s.input, ⟨s.pos.offset + 1, s.pos.line,
        s.pos.column + 1⟩⟩ := by
      unfold Scanner.advance1
      rw [if_neg (by simp [heof]), if_neg hcur]
    rw [ha1, ih ⟨s.input, ⟨s.pos.offset + 1, s.pos.line, s.pos.column + 1⟩⟩
      hnl (by dsimp only; omega)]
    dsimp only
    congr 1
    congr 1 <;> omega

/-- Whitespace skipping at end of input is the identity. -/
theorem skipWCGo_eof (f : Nat) (s : Scanner) (h : s.isEOF 0 = true) :
    skipWCGo f s = s := by
  cases f with
  | zero => rfl
  | succ f => unfold skipWCGo; rw [if_pos h]

/-- next at end of input yields the EOF token. -/
theorem next_eof (m : Bool) (fo : FloatOracle) (s : Scanner)
    (lm : Option Token) (h : s.isEOF 0 = true) :
    s.next m fo lm = .ok (Token.punct .eof s.pos, s, lm) := by
  unfold Scanner.next Scanner.skipWC
  rw [skipWCGo_eof _ _ h]
  dsimp only
  rw [if_pos h]

/-- A word byte is never a break byte. -/
theorem word_not_break (m : Bool) (c : Nat) (h : isWordByte c = true) :
    isBreakByte m c = false := by
  simp only [isWordByte, isDigit, Bool.or_eq_true, decide_eq_true_eq,
    beq_iff_eq] at h
  cases m <;> simp [isBreakByte] <;> omega

theorem digit_not_break (m : Bool) (c : Nat) (h : isDigit c = true) :
    isBreakByte m c = false := by
  apply word_not_break
  simp [isWordByte, h]

theorem colon_not_break (m : Bool) : isBreakByte m 0x3a = false := by
  cases m <;> decide

/-- consumeSymbol on a whole-symbol input consumes everything and leaves the
cursor at the end. -/
theorem consumeSymbol_all (m : Bool) (sym : List Nat) (hne : sym ≠ [])
    (hnl : ∀ b ∈ sym, b ≠ 0x0a)
    (hnb : ∀ c ∈ sym, isBreakByte m c = false) :
    (mkScanner sym).consumeSymbol m =
      (sym, ⟨sym, ⟨sym.length, 0, sym.length⟩⟩) := by
  have hlen1 : 1 ≤ sym.length := by
    cases sym with
    | nil => exact absurd rfl hne
    | cons a b => simp
  have h1 : (⟨sym, ⟨0, 0, 0⟩⟩ : Scanner).advance 1 = ⟨sym, ⟨1, 0, 1⟩⟩ := by
    rw [advance_no_nl 1 ⟨sym, ⟨0, 0, 0⟩⟩ hnl (by dsimp only; omega)]
  have htw : (sym.drop 1).takeWhile (fun c => ! isBreakByte m c)
      = sym.drop 1 := by
    apply takeWhile_all
    intro c hc
    simp [hnb c (List.mem_of_mem_drop hc)]
  have h2 : (⟨sym, ⟨1, 0, 1⟩⟩ : Scanner).advance (sym.drop 1).length =
      ⟨sym, ⟨sym.length, 0, sym.length⟩⟩ := by
    rw [advance_no_nl (sym.drop 1).length ⟨sym, ⟨1, 0, 1⟩⟩ hnl
      (by dsimp only; simp; omega)]
    dsimp only
    congr 1
    simp only [List.length_drop]
    congr 1 <;> omega
  simp only [Scanner.consumeSymbol, mkScanner, zeroPos]
  rw [h1]
  dsimp only
  rw [htw, h2]
  simp

/-- Running `next` on an input that is one whole symbol (no break bytes)
consumes everything and classifies the symbol. -/
theorem next_symbol (m : Bool) (fo : FloatOracle) (sym : List Nat)
    (lm : Option Token) (hne : sym ≠ [])
    (hnb : ∀ c ∈ sym, isBreakByte m c = false) :
    Scanner.next m fo (mkScanner sym) lm =
      (match classifySymbol m fo sym zeroPos ⟨sym.length, 0, sym.length⟩ lm with
       | .error e => .error e
       | .ok (t, lm2) => .ok (t, ⟨sym, ⟨sym.length, 0, sym.length⟩⟩, lm2)) := by
  obtain ⟨c0, rest, hsym⟩ : ∃ c0 rest, sym = c0 :: rest := by
    cases sym with
    | nil => exact absurd rfl hne
    | cons a b => exact ⟨a, b, rfl⟩
  have hc0 := hnb c0 (by simp [hsym])
  have hnl : ∀ b ∈ sym, b ≠ 0x0a := by
    intro b hb hb10
    subst hb10
    have := hnb _ hb
    cases m <;> simp [isBreakByte] at this
  have hcur : (mkScanner sym).cur = c0 := by
    simp [mkScanner, Scanner.cur, zeroPos, hsym]
  have heof : (mkScanner sym).isEOF 0 = false := by
    simp [mkScanner, Scanner.isEOF, zeroPos, hsym]
  have hb : c0 ≠ 0x20 ∧ c0 ≠ 0x09 ∧ c0 ≠ 0x0a ∧ c0 ≠ 0x0d ∧ c0 ≠ 0x7b ∧
      c0 ≠ 0x7d ∧ c0 ≠ 0x60 ∧ c0 ≠ 0x22 ∧ c0 ≠ 0x23 ∧
      ¬(m = true ∧ c0 = 0x21) := by
    cases m <;> simp [isBreakByte] at hc0 <;> simp_all
  unfold Scanner.next
  rw [skipWC_eq_self _ heof (by rw [hcur]; exact hb.1)
    (by rw [hcur]; exact hb.2.1) (by rw [hcur]; exact hb.2.2.1)
    (by rw [hcur]; exact hb.2.2.2.1) (by rw [hcur]; exact hb.2.2.2.2.2.2.2.2.1)]
  dsimp only
  rw [if_neg (by simp [heof]), hcur]
  rw [if_neg hb.2.2.2.2.1, if_neg hb.2.2.2.2.2.1, if_neg hb.2.2.2.2.2.2.2.1,
    if_neg hb.2.2.2.2.2.2.1, if_neg hb.2.2.2.2.2.2.2.2.2]
  rw [consumeSymbol_all m sym hne hnl hnb]
  dsimp only [mkScanner]
/-- The byte spelling of an encoding-format suffix. -/
def sfxB : Sfx → List Nat
  | .nosfx => []
  | .z => [0x7a]
  | .i32 => [0x69, 0x33, 0x32]
  | .i64 => [0x69, 0x36, 0x34]

/-- `matchTail` on a suffix spelling followed by a `:` wire-type group. -/
theorem matchTail_tag (wt : List Nat) (sfx : Sfx)
    (hwtw : wt.all isWordByte = true) :
    matchTail (sfxB sfx ++ 0x3a :: wt) = some (sfx, some wt) := by
  cases sfx <;> simp [matchTail, sfxB, hwtw]

/-- `regexpIntOrTag` on a decimal tag symbol with an optional suffix. -/
theorem parseIntOrTag_tag (ds wt : List Nat) (sfx : Sfx)
    (hne : ds ≠ []) (hds : ∀ c ∈ ds, isDigit c = true)
    (hwtw : wt.all isWordByte = true) :
    parseIntOrTag (ds ++ sfxB sfx ++ 0x3a :: wt) =
      some ⟨false, ds, false, sfx, some wt⟩ := by
  obtain ⟨d, ds', hds'⟩ : ∃ d ds', ds = d :: ds' := by
    cases ds with
    | nil => exact absurd rfl hne
    | cons a b => exact ⟨a, b, rfl⟩
  have hd := hds d (by simp [hds'])
  have hd2 : d ≠ 0x2d := by
    simp [isDigit] at hd
    omega
  obtain ⟨r0, rs, hrs, hr0⟩ : ∃ r0 rs,
      sfxB sfx ++ 0x3a :: wt = r0 :: rs ∧ isDigit r0 = false := by
    cases sfx <;> exact ⟨_, _, rfl, by decide⟩
  have hassoc : ds ++ sfxB sfx ++ 0x3a :: wt = ds ++ (r0 :: rs) := by
    rw [List.append_assoc, hrs]
  rw [hassoc]
  simp only [parseIntOrTag]
  have htake1 : (ds ++ (r0 :: rs)).take 1 = [d] := by
    subst hds'
    simp
  rw [htake1]
  rw [if_neg (show ¬([d] = [0x2d]) by simp [hd2])]
  rw [takeWhile_append_stop isDigit ds r0 rs hds hr0,
    dropWhile_append_stop isDigit ds r0 rs hds hr0]
  rw [if_pos hne, ← hrs, matchTail_tag wt sfx hwtw]
  simp [hd2]
/-- On a tag-shaped symbol, classification reduces to the integer-or-tag
branch. -/
theorem classifySymbol_tag (m : Bool) (fo : FloatOracle) (ds wt : List Nat)
    (sfx : Sfx) (start endPos : Position) (lm : Option Token)
    (hne : ds ≠ []) (hds : ∀ c ∈ ds, isDigit c = true)
    (hwtw : wt.all isWordByte = true) :
    classifySymbol m fo (ds ++ sfxB sfx ++ 0x3a :: wt) start endPos lm =
      classifyIntOrTag m ⟨false, ds, false, sfx, some wt⟩ start endPos lm := by
  simp only [classifySymbol, parseIntOrTag_tag ds wt sfx hne hds hwtw]

/-- A single-symbol program whose symbol fails to classify makes `exec` fail
with that error. -/
theorem exec_symbol_error (m : Bool) (fo : FloatOracle) (sym : List Nat)
    (e : Err) (hne : sym ≠ [])
    (hnb : ∀ c ∈ sym, isBreakByte m c = false)
    (hcl : classifySymbol m fo sym zeroPos ⟨sym.length, 0, sym.length⟩ none =
      .error e) :
    (mkScanner sym).exec m fo .top = .error e := by
  simp only [Scanner.exec]
  obtain ⟨f, hf⟩ : ∃ f, 2 * (mkScanner sym).input.length + 4 = f + 1 :=
    ⟨2 * (mkScanner sym).input.length + 3, by omega⟩
  rw [hf, execGo]
  rw [next_symbol m fo sym none hne hnb, hcl]

/-- A single-symbol program whose symbol classifies to a bytes token with no
pending modifier assembles to exactly that token's bytes. -/
theorem exec_symbol_bytes (m : Bool) (fo : FloatOracle) (sym val : List Nat)
    (w : Nat) (inferred : Bool) (hne : sym ≠ [])
    (hnb : ∀ c ∈ sym, isBreakByte m c = false)
    (hcl : classifySymbol m fo sym zeroPos ⟨sym.length, 0, sym.length⟩ none =
      .ok (Token.bytes val w inferred ⟨sym.length, 0, sym.length⟩, none)) :
    (mkScanner sym).exec m fo .top =
      .ok (val, ⟨sym, ⟨sym.length, 0, sym.length⟩⟩, none) := by
  simp only [Scanner.exec]
  obtain ⟨f, hf⟩ : ∃ f, 2 * (mkScanner sym).input.length + 4 = f + 1 + 1 :=
    ⟨2 * (mkScanner sym).input.length + 2, by omega⟩
  rw [hf, execGo]
  rw [next_symbol m fo sym none hne hnb, hcl]
  dsimp only [Token.bytes]
  rw [if_neg (by simp)]
  have hnext := next_eof m fo ⟨sym, ⟨sym.length, 0, sym.length⟩⟩ none
    (by simp [Scanner.isEOF])
  cases inferred <;>
    simp only [Bool.false_eq_true, eq_self_iff_true, if_true, if_false,
      List.nil_append, List.length_nil] <;>
    rw [execGo, hnext] <;>
    dsimp only [Token.punct] <;>
    rw [if_neg (by simp)]
/-- The integer-or-tag branch rejects a fixed-width suffix on a tag. -/
theorem classifyIntOrTag_fixed (m : Bool) (ds wt : List Nat) (sfx : Sfx)
    (start endPos : Position) (lm : Option Token) (v : Nat)
    (hsfx : sfx = .i32 ∨ sfx = .i64)
    (hne : ds ≠ []) (hval : digitsVal 10 ds = some v) (hv : v < 2 ^ 63) :
    classifyIntOrTag m ⟨false, ds, false, sfx, some wt⟩ start endPos lm =
      .error (.atPos start .fixedWidthOnTag) := by
  have hp : parseInt64 10 ds = some v := by
    have hv' : v < 9223372036854775808 := by omega
    simp [parseInt64, hne, hval, hv']
  rcases hsfx with h | h <;> subst h <;> simp [classifyIntOrTag, hp]

/-- `classifyIntOrTag` on a plain tag (no suffix) with an in-range field
number emits the canonical varint of `(v <<< 3) ||| w`. -/
theorem classifyIntOrTag_tag_ok (ds wt : List Nat) (start endPos : Position)
    (v w : Nat) (inferred : Bool)
    (hne : ds ≠ []) (hval : digitsVal 10 ds = some v) (hv : v < 2 ^ 61)
    (hwt : wireTypeVal wt = .ok (w, inferred)) (hw : w ≤ 7) :
    classifyIntOrTag true ⟨false, ds, false, .nosfx, some wt⟩ start endPos
      none =
      .ok (Token.bytes (encodeVarint [] ((v <<< 3) ||| w) 0) 0 inferred endPos,
        none) := by
  have hp : parseInt64 10 ds = some v := by
    have hv' : v < 9223372036854775808 := by omega
    simp [parseInt64, hne, hval, hv']
  have h8 : v <<< 3 < 2 ^ 64 := by
    rw [Nat.shiftLeft_eq]
    omega
  have hmod : v <<< 3 % 18446744073709551616 = v <<< 3 := Nat.mod_eq_of_lt h8
  have h61 : ¬(2305843009213693952 ≤ v) := by omega
  simp [classifyIntOrTag, classifyIntOrTag.classifyEncode, hp, hwt, hmod,
    show ¬(7 < w) from by omega, h61]

/-- `classifyIntOrTag` on a plain tag whose field number is out of range
fails (with the overflow error when `strconv.ParseInt` itself succeeds). -/
theorem classifyIntOrTag_tag_overflow (ds wt : List Nat)
    (start endPos : Position) (v w : Nat) (inferred : Bool)
    (hne : ds ≠ []) (hval : digitsVal 10 ds = some v) (hv : 2 ^ 61 ≤ v)
    (hwt : wireTypeVal wt = .ok (w, inferred)) (hw : w ≤ 7) :
    ∃ e, classifyIntOrTag true ⟨false, ds, false, .nosfx, some wt⟩ start
      endPos none = .error e := by
  by_cases hv63 : v < 2 ^ 63
  · refine ⟨.atPos start .fieldNumberOverflow, ?_⟩
    have hp : parseInt64 10 ds = some v := by
      have hv' : v < 9223372036854775808 := by omega
      simp [parseInt64, hne, hval, hv']
    have h1 : v < 9223372036854775808 := hv63
    have h2 : (2305843009213693952 : Nat) ≤ v := hv
    simp [classifyIntOrTag, hp, hwt, show ¬(7 < w) from by omega, h1, h2]
  · refine ⟨.atPos start .intParseErr, ?_⟩
    have hp : parseInt64 10 ds = none := by
      simp [parseInt64, hne, hval]
      omega
    simp [classifyIntOrTag, hp]
/-- Every byte of a tag-shaped symbol is a non-break byte. -/
theorem tag_symbol_no_break (m : Bool) (ds wt : List Nat) (sfx : Sfx)
    (hds : ∀ c ∈ ds, isDigit c = true) (hwtw : wt.all isWordByte = true) :
    ∀ c ∈ ds ++ sfxB sfx ++ 0x3a :: wt, isBreakByte m c = false := by
  intro c hc
  rcases List.mem_append.mp hc with hc | hc
  · rcases List.mem_append.mp hc with hc | hc
    · exact digit_not_break _ _ (hds c hc)
    · apply word_not_break
      cases sfx <;> simp [sfxB] at hc
      · subst hc; decide
      · rcases hc with rfl | rfl | rfl <;> decide
      · rcases hc with rfl | rfl | rfl <;> decide
  · rcases List.mem_cons.mp hc with rfl | hc
    · exact colon_not_break _
    · exact word_not_break _ _ (List.all_eq_true.mp hwtw c hc)

/-- A tag-shaped symbol is nonempty. -/
theorem tag_symbol_ne_nil (ds wt : List Nat) (sfx : Sfx) :
    ds ++ sfxB sfx ++ 0x3a :: wt ≠ [] := by
  simp
/-! ## C8: encoding-format suffixes on tag expressions

The claim says all three suffixes `z`, `i32`, `i64` make the scanner fail on
a symbol with a `:` wire-type expression.  That is false for `z` — see the
counterexample (the repository's own scanner test expects `9z:7` to
zigzag-encode the combined tag).  The amended theorem: exactly the
fixed-width suffixes `i32`/`i64` are rejected, with the
fixed-width-on-tag error at the token's start position. -/

/-- C8 (amended): for every decimal integer symbol with a `:` wire-type
expression and an `i32` or `i64` suffix (and a value in the `ParseInt`
range, so that the suffix check is reached), assembly fails with the
fixed-width-on-tag error; the `z` suffix is not covered because the code
accepts it (see the counterexample). -/
theorem c8_fixed_suffix_rejected (fo : FloatOracle) (ds wt : List Nat)
    (sfx : Sfx) (v : Nat) (hsfx : sfx = .i32 ∨ sfx = .i64)
    (hne : ds ≠ []) (hds : ∀ c ∈ ds, isDigit c = true)
    (hval : digitsVal 10 ds = some v) (hv : v < 2 ^ 63)
    (hwtw : wt.all isWordByte = true) :
    Scanner.Exec fo (mkScanner (ds ++ sfxB sfx ++ 0x3a :: wt)) =
      .error (.atPos zeroPos .fixedWidthOnTag) := by
  have hnb := tag_symbol_no_break false ds wt sfx hds hwtw
  have hcl : classifySymbol false fo (ds ++ sfxB sfx ++ 0x3a :: wt) zeroPos
      ⟨(ds ++ sfxB sfx ++ 0x3a :: wt).length, 0,
        (ds ++ sfxB sfx ++ 0x3a :: wt).length⟩ none =
      .error (.atPos zeroPos .fixedWidthOnTag) := by
    rw [classifySymbol_tag false fo ds wt sfx _ _ none hne hds hwtw]
    exact classifyIntOrTag_fixed false ds wt sfx _ _ none v hsfx hne hval hv
  unfold Scanner.Exec
  rw [exec_symbol_error false fo _ _ (tag_symbol_ne_nil ds wt sfx) hnb hcl]
  rfl

/-- Witness: the symbol `9i32:7` is rejected with the fixed-width-on-tag
error. -/
theorem c8_fixed_suffix_rejected_witness :
    (Sfx.i32 = Sfx.i32 ∨ Sfx.i32 = Sfx.i64) ∧
    Scanner.Exec noFloats
        (mkScanner ([0x39] ++ sfxB .i32 ++ 0x3a :: [0x37])) =
      .error (.atPos zeroPos .fixedWidthOnTag) :=
  ⟨Or.inl rfl, c8_fixed_suffix_rejected noFloats [0x39] [0x37] .i32 9
    (Or.inl rfl) (by decide) (by decide) (by decide) (by decide) (by decide)⟩
/-! ## C5: tag expressions encode as the canonical varint of the tag value

A field number is written as a nonempty decimal digit string `ds` of value
`v`; the wire type `W` is any spelling `wt` (a keyword `VARINT`/`I64`/`LEN`/
`SGROUP`/`EGROUP`/`I32` or a decimal literal) that `wireTypeVal` evaluates to
`w ≤ 7`.  The overflow bound is the spec-modelled field-number check (see
`classifyIntOrTag`): a value needs `< 2^61` to shift into the 64-bit tag. -/

/-- C5: assembling the single tag expression `ds:wt` (field number value `v ≥
1`, wire type value `w ≤ 7`) emits exactly the canonical varint encoding of
`(v <<< 3) ||| w` — canonical in that its length is `canonical_len` of the
value — while a field number of `2^61` or beyond fails with an error. -/
theorem c5_tag_encoding (fo : FloatOracle) (ds wt : List Nat) (v w : Nat)
    (inferred : Bool) (hne : ds ≠ []) (hds : ∀ c ∈ ds, isDigit c = true)
    (hval : digitsVal 10 ds = some v) (hv1 : 1 ≤ v)
    (hwt : wireTypeVal wt = .ok (w, inferred)) (hw : w ≤ 7)
    (hwtw : wt.all isWordByte = true) :
    (v < 2 ^ 61 →
      Scanner.ExecSpec fo (mkScanner (ds ++ 0x3a :: wt)) =
        .ok (encodeVarint [] ((v <<< 3) ||| w) 0) ∧
      (encodeVarint [] ((v <<< 3) ||| w) 0).length =
        canonicalLen ((v <<< 3) ||| w)) ∧
    (2 ^ 61 ≤ v →
      ∃ e, Scanner.ExecSpec fo (mkScanner (ds ++ 0x3a :: wt)) = .error e) := by
  have heq : ds ++ sfxB .nosfx ++ 0x3a :: wt = ds ++ 0x3a :: wt := by
    simp [sfxB]
  have hsne : ds ++ 0x3a :: wt ≠ [] := by
    rw [← heq]
    exact tag_symbol_ne_nil ds wt .nosfx
  have hnb : ∀ c ∈ ds ++ 0x3a :: wt, isBreakByte true c = false := by
    rw [← heq]
    exact tag_symbol_no_break true ds wt .nosfx hds hwtw
  have hclt := classifySymbol_tag true fo ds wt .nosfx zeroPos
    ⟨(ds ++ 0x3a :: wt).length, 0, (ds ++ 0x3a :: wt).length⟩ none
    hne hds hwtw
  rw [heq] at hclt
  constructor
  · intro hv61
    have hcl := hclt.trans (classifyIntOrTag_tag_ok ds wt zeroPos
      ⟨(ds ++ 0x3a :: wt).length, 0, (ds ++ 0x3a :: wt).length⟩ v w inferred
      hne hval hv61 hwt hw)
    constructor
    · unfold Scanner.ExecSpec
      rw [exec_symbol_bytes true fo _ _ 0 inferred hsne hnb hcl]
      rfl
    · have hlt : (v <<< 3) ||| w < 128 ^ (10 + 1) := by
        have h8 : v <<< 3 < 2 ^ 64 := by
          rw [Nat.shiftLeft_eq]
          omega
        have hw64 : w < 2 ^ 64 := by omega
        calc (v <<< 3) ||| w < 2 ^ 64 := Nat.bitwise_lt h8 hw64
        _ ≤ 128 ^ (10 + 1) := by norm_num
      rw [show encodeVarint [] ((v <<< 3) ||| w) 0 =
        encVarCore 10 ((v <<< 3) ||| w) by simp [encodeVarint]]
      exact encVarCore_length 10 _ hlt
  · intro hv61
    obtain ⟨e, he⟩ := classifyIntOrTag_tag_overflow ds wt zeroPos
      ⟨(ds ++ 0x3a :: wt).length, 0, (ds ++ 0x3a :: wt).length⟩ v w inferred
      hne hval hv61 hwt hw
    refine ⟨e, ?_⟩
    unfold Scanner.ExecSpec
    rw [exec_symbol_error true fo _ _ hsne hnb (hclt.trans he)]
    rfl

/-- Witness: `1:VARINT` assembles to the canonical varint of `(1 <<< 3) |||
0`, the single byte `0x08`. -/
theorem c5_tag_encoding_witness :
    (1 < 2 ^ 61) ∧
    (Scanner.ExecSpec noFloats
        (mkScanner ([0x31] ++ 0x3a :: [0x56, 0x41, 0x52, 0x49, 0x4e, 0x54])) =
      .ok (encodeVarint [] ((1 <<< 3) ||| 0) 0) ∧
    (encodeVarint [] ((1 <<< 3) ||| 0) 0).length =
      canonicalLen ((1 <<< 3) ||| 0)) :=
  ⟨by decide, (c5_tag_encoding noFloats [0x31]
    [0x56, 0x41, 0x52, 0x49, 0x4e, 0x54] 1 0 false (by decide) (by decide)
    (by decide) (by decide) (by decide) (by decide) (by decide)).1
    (by decide)⟩

end Protoscope
